import Mathlib

/-!
Verification of the mechbay binary-record codec (`mechbay/data.py`,
`mechbay/tbl.py`).

Python values are embedded as follows: `bytes` objects and buffer contents
are `List Nat` with every element below 256; `str` objects are `List Nat`
of Unicode code points (Python strings are sequences of code points);
fallible Python operations (`int(...)`, `to_bytes`, `encode`, `decode`,
indexing, assertions) return `Option`, with `none` standing for a raised
exception.  A `while` loop that can run forever (reading a missing
terminator) is also mapped to `none`.

All definitions translate the source in `src/mechbay/` except `read_string`,
which `StringTBL._read` calls but which is not defined in the sources; it is
modelled from the spec and marked as such in its doc comment.
-/

/-- `int.from_bytes(byte_string, byteorder="little")`: little-endian value of
a byte list (most significant last). -/
def fromBytesLE : List Nat → Nat
  | [] => 0
  | b :: rest => b + 256 * fromBytesLE rest

/-- `value.to_bytes(length, byteorder="little")` for a non-negative value:
`none` models the `OverflowError` raised when the value needs more than
`length` bytes. -/
def toBytesLE : Nat → Nat → Option (List Nat)
  | 0, v => if v = 0 then some [] else none
  | n + 1, v => (toBytesLE n (v / 256)).map (fun rest => v % 256 :: rest)

/-- `value.to_bytes(length, byteorder="little", signed=True)`: two's
complement; `none` models the `OverflowError` outside the signed range. -/
def toBytesLESigned (n : Nat) (v : Int) : Option (List Nat) :=
  if n = 0 then (if v = 0 then some [] else none)
  else if -(2 ^ (8 * n - 1) : Int) ≤ v ∧ v < (2 ^ (8 * n - 1) : Int)
  then toBytesLE n ((v % (2 ^ (8 * n) : Int)).toNat)
  else none

/-- `int.from_bytes(byte_string, byteorder="little", signed=True)`. -/
def fromBytesLESigned (bs : List Nat) : Int :=
  let u := fromBytesLE bs
  if u < 2 ^ (8 * bs.length - 1) then (u : Int) else (u : Int) - 2 ^ (8 * bs.length)

/-- `GundamDataFile.read_int` (data.py:20-23); all call sites use
little-endian order, so only the `signed` flag is kept. -/
def read_int (byte_string : List Nat) (signed : Bool) : Int :=
  if signed then fromBytesLESigned byte_string else (fromBytesLE byte_string : Int)

/-- `GundamDataFile.write_int` (data.py:25-28); all call sites use
little-endian order. -/
def write_int (value : Int) (length : Nat) (signed : Bool) : Option (List Nat) :=
  if signed then toBytesLESigned length value
  else if 0 ≤ value then toBytesLE length value.toNat else none

/-- Little-endian decimal digit values of `n` (`fuel` bounds the recursion;
`fuel ≥ n` is always sufficient). -/
def decDigitsLE : Nat → Nat → List Nat
  | 0, _ => []
  | _ + 1, 0 => []
  | fuel + 1, n + 1 => (n + 1) % 10 :: decDigitsLE fuel ((n + 1) / 10)

/-- Python format `f"{n:0w}"` for a natural `n`: the decimal digits of `n`
as code points, left-padded with `'0'` to width `w`. -/
def fmtPad (w n : Nat) : List Nat :=
  let ds := if n = 0 then [48] else ((decDigitsLE n n).reverse.map (· + 48))
  List.replicate (w - ds.length) 48 ++ ds

/-- Is the code point an ASCII decimal digit? -/
def isDigitCp (c : Nat) : Bool := 48 ≤ c && c ≤ 57

/-- Is the code point ASCII whitespace (stripped by Python `int(str)`)? -/
def isWsCp (c : Nat) : Bool := c == 32 || c == 9 || c == 10 || c == 11 || c == 12 || c == 13

/-- Digit run of Python `int(str)` after the optional sign: decimal digits
with single underscores allowed between digits. -/
def parseDigitsGo : List Nat → Nat → Option Nat
  | [], acc => some acc
  | c :: rest, acc =>
    if isDigitCp c then parseDigitsGo rest (acc * 10 + (c - 48))
    else if c = 95 then
      match rest with
      | c2 :: rest2 =>
        if isDigitCp c2 then parseDigitsGo rest2 (acc * 10 + (c2 - 48)) else none
      | [] => none
    else none

/-- Unsigned part of Python `int(str)`: at least one digit, which must come
first. -/
def pyIntCore : List Nat → Option Nat
  | [] => none
  | c :: rest => if isDigitCp c then parseDigitsGo rest (c - 48) else none

/-- Strip leading and trailing whitespace, as Python `int(str)` does. -/
def stripWs (s : List Nat) : List Nat :=
  ((s.dropWhile isWsCp).reverse.dropWhile isWsCp).reverse

/-- Python `int(str)`: optional whitespace, optional sign, decimal digits;
`none` models the `ValueError` on malformed input. -/
def pyInt (s : List Nat) : Option Int :=
  match stripWs s with
  | 43 :: rest => (pyIntCore rest).map (fun n => (n : Int))
  | 45 :: rest => (pyIntCore rest).map (fun n => -(n : Int))
  | t => (pyIntCore t).map (fun n => (n : Int))

/-- UTF-8 encoding of one code point, as Python `str.encode("utf-8")`
produces it; `none` models the `UnicodeEncodeError` raised on surrogates
(and guards the code-point upper bound). -/
def utf8EncodeCp (c : Nat) : Option (List Nat) :=
  if c < 0x80 then some [c]
  else if c < 0x800 then some [0xC0 + c / 0x40, 0x80 + c % 0x40]
  else if c < 0x10000 then
    if 0xD800 ≤ c ∧ c < 0xE000 then none
    else some [0xE0 + c / 0x1000, 0x80 + (c / 0x40) % 0x40, 0x80 + c % 0x40]
  else if c < 0x110000 then
    some [0xF0 + c / 0x40000, 0x80 + (c / 0x1000) % 0x40, 0x80 + (c / 0x40) % 0x40, 0x80 + c % 0x40]
  else none

/-- `str.encode("utf-8")` over a whole string. -/
def utf8Encode : List Nat → Option (List Nat)
  | [] => some []
  | c :: rest => do
    let bs ← utf8EncodeCp c
    let tail ← utf8Encode rest
    pure (bs ++ tail)

/-- Byte length of the UTF-8 encoding (0 when encoding fails). -/
def utf8Len (s : List Nat) : Nat :=
  match utf8Encode s with
  | some bs => bs.length
  | none => 0

/-- One step of strict UTF-8 decoding: the first code point of the byte
list and the remaining bytes, or `none` on a malformed leading sequence
(stray continuation byte, overlong form, surrogate, out-of-range lead,
truncated sequence). -/
def utf8DecodeOne : List Nat → Option (Nat × List Nat)
  | [] => none
  | b :: rest =>
    if b < 0x80 then some (b, rest)
    else if b < 0xC2 then none
    else if b < 0xE0 then
      match rest with
      | b1 :: r =>
        if 0x80 ≤ b1 ∧ b1 < 0xC0 then some ((b - 0xC0) * 0x40 + (b1 - 0x80), r)
        else none
      | [] => none
    else if b < 0xF0 then
      match rest with
      | b1 :: b2 :: r =>
        if (if b = 0xE0 then 0xA0 ≤ b1 ∧ b1 < 0xC0
            else if b = 0xED then 0x80 ≤ b1 ∧ b1 < 0xA0
            else 0x80 ≤ b1 ∧ b1 < 0xC0) ∧ 0x80 ≤ b2 ∧ b2 < 0xC0 then
          some ((b - 0xE0) * 0x1000 + (b1 - 0x80) * 0x40 + (b2 - 0x80), r)
        else none
      | _ => none
    else if b < 0xF5 then
      match rest with
      | b1 :: b2 :: b3 :: r =>
        if (if b = 0xF0 then 0x90 ≤ b1 ∧ b1 < 0xC0
            else if b = 0xF4 then 0x80 ≤ b1 ∧ b1 < 0x90
            else 0x80 ≤ b1 ∧ b1 < 0xC0) ∧ 0x80 ≤ b2 ∧ b2 < 0xC0 ∧ 0x80 ≤ b3 ∧ b3 < 0xC0 then
          some ((b - 0xF0) * 0x40000 + (b1 - 0x80) * 0x1000 + (b2 - 0x80) * 0x40 + (b3 - 0x80), r)
        else none
      | _ => none
    else none

/-- Iterated UTF-8 decoding; `fuel` only bounds the recursion — each step
consumes at least one byte, so `fuel ≥ length` never runs out. -/
def utf8DecodeAux : Nat → List Nat → Option (List Nat)
  | _, [] => some []
  | 0, _ :: _ => none
  | fuel + 1, b :: rest =>
    match utf8DecodeOne (b :: rest) with
    | some (c, r) => (utf8DecodeAux fuel r).map (fun t => c :: t)
    | none => none

/-- `bytes.decode("utf-8")`: strict UTF-8 decoding to code points; `none`
models the `UnicodeDecodeError` on malformed input. -/
def utf8Decode (l : List Nat) : Option (List Nat) := utf8DecodeAux l.length l

/-- `GundamDataFile.read_series_bytes` (data.py:30-36): 2-byte LE number,
2-byte LE code point, rendered `f"{chr(g)}{num:04}"`; `none` models the
`ValueError` of `chr` on values ≥ 0x110000 (unreachable from 2 bytes, kept
for fidelity on longer inputs). -/
def read_series_bytes (byte_string : List Nat) : Option (List Nat) :=
  let num := fromBytesLE (byte_string.take 2)
  let g := fromBytesLE (byte_string.drop 2)
  if g < 0x110000 then some (g :: fmtPad 4 num) else none

/-- `GundamDataFile.write_series_bytes` (data.py:38-44):
`int(series_string[1:]).to_bytes(2, "little")` then
`ord(series_string[0]).to_bytes(2, "little")`. -/
def write_series_bytes (series_string : List Nat) : Option (List Nat) := do
  let n ← pyInt (series_string.drop 1)
  let nb ← if 0 ≤ n then toBytesLE 2 n.toNat else none
  let c ← series_string.get? 0
  let cb ← toBytesLE 2 c
  pure (nb ++ cb)

/-- `GundamDataFile.read_guid_bytes` (data.py:46-59).  The outer `Option`
models raised exceptions (indexing past the end of a short input); the inner
`Option` is the Python `Union[str, None]` result, with `none` for the
all-zero pattern. -/
def read_guid_bytes (byte_string : List Nat) : Option (Option (List Nat)) :=
  if byte_string = List.replicate 8 0 then some none
  else do
    let series := fromBytesLE (byte_string.take 2)
    let gundam ← byte_string.get? 2
    let unit_type ← byte_string.get? 4
    let spec ← byte_string.get? 5
    let model := fromBytesLE ((byte_string.drop 6).take 2)
    pure (some (gundam :: fmtPad 4 series ++ unit_type :: fmtPad 3 model ++ fmtPad 2 spec))

/-- `GundamDataFile.write_guid_bytes` (data.py:61-74).  The argument is the
Python `Union[str, None]`; `if not unit_string` also sends the empty string
to eight zero bytes. -/
def write_guid_bytes (unit_string : Option (List Nat)) : Option (List Nat) :=
  match unit_string with
  | none => some (List.replicate 8 0)
  | some s =>
    if s = [] then some (List.replicate 8 0)
    else do
      let n1 ← pyInt ((s.drop 1).take 4)
      let b1 ← if 0 ≤ n1 then toBytesLE 2 n1.toNat else none
      let c0 ← s.get? 0
      let g ← utf8EncodeCp c0
      let c5 ← s.get? 5
      let t ← utf8EncodeCp c5
      let spec ← pyInt ((s.drop 9).take 2)
      let sb ← if 0 ≤ spec then toBytesLE 1 spec.toNat else none
      let model ← pyInt ((s.drop 6).take 3)
      let mb ← if 0 ≤ model then toBytesLE 2 model.toNat else none
      pure (b1 ++ g ++ [0] ++ t ++ sb ++ mb)

/-- A Python binary buffer: the underlying bytes plus the cursor position
(`buffer.tell()`). -/
structure Buffer where
  data : List Nat
  pos : Nat
deriving DecidableEq

/-- `buffer.read(n)`: the next `n` bytes (fewer at end of data); the cursor
advances by the number of bytes actually returned. -/
def Buffer.readN (buf : Buffer) (n : Nat) : List Nat × Buffer :=
  let bs := (buf.data.drop buf.pos).take n
  (bs, ⟨buf.data, buf.pos + bs.length⟩)

/-- The byte-by-byte scan of the `while True` loop in
`read_string_null_term`: bytes before the first `0x00`; `none` models the
loop running past the end of data forever when no terminator exists. -/
def scanNullTerm : List Nat → Option (List Nat)
  | [] => none
  | b :: rest => if b = 0 then some [] else (scanNullTerm rest).map (fun t => b :: t)

/-- `GundamDataFile.read_string_null_term` (data.py:76-86): seeks to
`offset + self._start_pos` (NOT to the current cursor), reads bytes up to
and excluding the first `0x00`, and UTF-8-decodes them.  The cursor ends
just past the terminator. -/
def read_string_null_term (start_pos : Nat) (buf : Buffer) (offset : Nat) :
    Option (List Nat × Buffer) :=
  match scanNullTerm (buf.data.drop (offset + start_pos)) with
  | none => none
  | some bs =>
    (utf8Decode bs).map (fun s => (s, ⟨buf.data, offset + start_pos + bs.length + 1⟩))

/-- `GundamDataFile.write_string_null_term` (data.py:88-90). -/
def write_string_null_term (string : List Nat) : Option (List Nat) :=
  (utf8Encode string).map (fun bs => bs ++ [0])

/-- `GundamDataFile.read_string_length` (data.py:92-96): 1 length byte, then
that many bytes, UTF-8-decoded. -/
def read_string_length (buf : Buffer) : Option (List Nat × Buffer) :=
  let (lb, buf1) := buf.readN 1
  let (sb, buf2) := buf1.readN (fromBytesLE lb)
  (utf8Decode sb).map (fun s => (s, buf2))

/-- `GundamDataFile.write_string_length` (data.py:98-103): writes
`len(string)` — the number of CODE POINTS, not the UTF-8 byte length — as
one byte, then the UTF-8 bytes. -/
def write_string_length (string : List Nat) : Option (List Nat) := do
  let lb ← toBytesLE 1 string.length
  let enc ← utf8Encode string
  pure (lb ++ enc)

/-- `GundamDataFile.read_header` (data.py:105-110): records the start
position, reads and asserts the magic bytes (`none` models the
`AssertionError`), then reads the little-endian record count.  Returns
(start position, record count, buffer after the header). -/
def read_header (hdr : List Nat) (record_count_length : Nat) (buf : Buffer) :
    Option (Nat × Nat × Buffer) :=
  let start_pos := buf.pos
  let (h, buf1) := buf.readN hdr.length
  if h = hdr then
    let (cb, buf2) := buf1.readN record_count_length
    some (start_pos, fromBytesLE cb, buf2)
  else none

/-- A decoded Python record value: an `int`, a `str`, or `None`. -/
inductive PyVal where
  | int (i : Int)
  | str (s : List Nat)
  | none
deriving DecidableEq

/-- `record[field]` on the association-list embedding of a Python dict;
`Option.none` models the `KeyError` for a missing key. -/
def pyGet (record : List (List Nat × PyVal)) (field : List Nat) : Option PyVal :=
  (record.find? (fun p => p.1 == field)).map (fun p => p.2)

/-- Code points of the tag prefix "int". -/
def tagInt : List Nat := [105, 110, 116]

/-- Code points of the tag prefix "uint". -/
def tagUint : List Nat := [117, 105, 110, 116]

/-- Code points of the tag "len_string". -/
def tagLenString : List Nat := [108, 101, 110, 95, 115, 116, 114, 105, 110, 103]

/-- Code points of the tag "null_string". -/
def tagNullString : List Nat := [110, 117, 108, 108, 95, 115, 116, 114, 105, 110, 103]

/-- Code points of the tag "guid". -/
def tagGuid : List Nat := [103, 117, 105, 100]

/-- Code points of the tag "series_guid". -/
def tagSeriesGuid : List Nat := [115, 101, 114, 105, 101, 115, 95, 103, 117, 105, 100]

/-- `int(field_type[-1])`: the last character of the tag parsed as an
integer. -/
def intOfLastChar (t : List Nat) : Option Int := do
  let c ← t.getLast?
  pyInt [c]

/-- `GundamDataFile.read_record` (data.py:145-167): dispatch on the field
type in schema order.  A tag matching no branch is silently skipped — the
`if/elif` chain has no `else` — so the field is omitted from the record and
no bytes are consumed. -/
def read_record (start_pos : Nat) (definition : List (List Nat × List Nat)) (buf : Buffer) :
    Option (List (List Nat × PyVal) × Buffer) :=
  match definition with
  | [] => some ([], buf)
  | (field, field_type) :: rest =>
    if tagInt.isPrefixOf field_type then do
      let w ← intOfLastChar field_type
      let (bs, buf1) := buf.readN w.toNat
      let (tl, buf2) ← read_record start_pos rest buf1
      pure ((field, PyVal.int (read_int bs true)) :: tl, buf2)
    else if tagUint.isPrefixOf field_type then do
      let w ← intOfLastChar field_type
      let (bs, buf1) := buf.readN w.toNat
      let (tl, buf2) ← read_record start_pos rest buf1
      pure ((field, PyVal.int (read_int bs false)) :: tl, buf2)
    else if field_type = tagLenString then do
      let (s, buf1) ← read_string_length buf
      let (tl, buf2) ← read_record start_pos rest buf1
      pure ((field, PyVal.str s) :: tl, buf2)
    else if field_type = tagNullString then do
      let (s, buf1) ← read_string_null_term start_pos buf 0
      let (tl, buf2) ← read_record start_pos rest buf1
      pure ((field, PyVal.str s) :: tl, buf2)
    else if field_type = tagGuid then do
      let (bs, buf1) := buf.readN 8
      let v ← read_guid_bytes bs
      let (tl, buf2) ← read_record start_pos rest buf1
      pure ((field, match v with | some s => PyVal.str s | Option.none => PyVal.none) :: tl, buf2)
    else if field_type = tagSeriesGuid then do
      let (bs, buf1) := buf.readN 4
      let v ← read_series_bytes bs
      let (tl, buf2) ← read_record start_pos rest buf1
      pure ((field, PyVal.str v) :: tl, buf2)
    else
      read_record start_pos rest buf

/-- `GundamDataFile.write_record` (data.py:169-193).  NOTE: exactly as in
the source, the `len_string`, `null_string`, `guid` and `series_guid`
branches pass `field` — the schema field NAME — to the encoders, not
`record[field]`.  A tag matching no branch is silently skipped. -/
def write_record (definition : List (List Nat × List Nat)) (record : List (List Nat × PyVal)) :
    Option (List Nat) :=
  match definition with
  | [] => some []
  | (field, field_type) :: rest =>
    if tagInt.isPrefixOf field_type then do
      let v ← pyGet record field
      let i ← match v with | PyVal.int i => some i | _ => Option.none
      let w ← intOfLastChar field_type
      let b ← write_int i w.toNat true
      let tl ← write_record rest record
      pure (b ++ tl)
    else if tagUint.isPrefixOf field_type then do
      let v ← pyGet record field
      let i ← match v with | PyVal.int i => some i | _ => Option.none
      let w ← intOfLastChar field_type
      let b ← write_int i w.toNat false
      let tl ← write_record rest record
      pure (b ++ tl)
    else if field_type = tagLenString then do
      let b ← write_string_length field
      let tl ← write_record rest record
      pure (b ++ tl)
    else if field_type = tagNullString then do
      let b ← write_string_null_term field
      let tl ← write_record rest record
      pure (b ++ tl)
    else if field_type = tagGuid then do
      let b ← write_guid_bytes (some field)
      let tl ← write_record rest record
      pure (b ++ tl)
    else if field_type = tagSeriesGuid then do
      let b ← write_series_bytes field
      let tl ← write_record rest record
      pure (b ++ tl)
    else
      write_record rest record

/-- `StringTBL.header` (tbl.py:11). -/
def stringTBLHeader : List Nat := [0, 0, 0, 0, 0, 1, 1, 0]

/-- `StageVoiceTable.header` (tbl.py:58). -/
def stageVoiceHeader : List Nat := [0x54, 0x52, 0x54, 0x53, 0, 1, 1, 0]

/-- The index-entry loop of `StringTBL._write` (tbl.py:27-30): for each
record emit `int(record["index"]).to_bytes(4, "little")` and the running
`string_start` as 4 LE bytes, then advance `string_start` by the UTF-8
length of the string plus one. -/
def writeEntries : List (Int × List Nat) → Nat → Option (List Nat)
  | [], _ => some []
  | (idx, s) :: rest, string_start => do
    let ib ← if 0 ≤ idx then toBytesLE 4 idx.toNat else none
    let pb ← toBytesLE 4 string_start
    let enc ← utf8Encode s
    let tl ← writeEntries rest (string_start + (enc.length + 1))
    pure (ib ++ pb ++ tl)

/-- The string-blob loop of `StringTBL._write` (tbl.py:34-35): each string
UTF-8-encoded and followed by one `0x00`. -/
def writeBlob : List (Int × List Nat) → Option (List Nat)
  | [] => some []
  | (_, s) :: rest => do
    let enc ← utf8Encode s
    let tl ← writeBlob rest
    pure (enc ++ [0] ++ tl)

/-- `StringTBL._write` (tbl.py:13-37): header, 4-byte LE count, index
entries, `16 - (string_start % 16)` zero padding bytes, string blob.  A
record is the pair (value of "index", value of "string"). -/
def stringTBL_write (records : List (Int × List Nat)) : Option (List Nat) := do
  let record_count := records.length
  let cb ← toBytesLE 4 record_count
  let string_start := 12 + record_count * 8
  let padding := 16 - string_start % 16
  let entries ← writeEntries records (string_start + padding)
  let blob ← writeBlob records
  pure (stringTBLHeader ++ cb ++ entries ++ List.replicate padding 0 ++ blob)

/-- Modelled from the spec: `read_string` is called by `StringTBL._read`
(tbl.py:52) but is not defined anywhere in the sources; spec §4.4 (decode)
says: per entry, seek to `pointer` and read a null-terminated string.
Following `read_string_null_term`, the seek target is the pointer plus the
recorded start position, and the bytes read are UTF-8-decoded. -/
def read_string (buf : Buffer) (start_pos pointer : Nat) : Option (List Nat) :=
  (scanNullTerm (buf.data.drop (pointer + start_pos))).bind utf8Decode

/-- The index-entry loop of `StringTBL._read` (tbl.py:43-49): `count`
records, each carrying its sequential `__order`, a 4-byte LE `index` and a
4-byte LE `__pointer`. -/
def readEntries (ord : Nat) : Nat → Buffer → List (Nat × Nat × Nat) × Buffer
  | 0, buf => ([], buf)
  | n + 1, buf =>
    let (ib, buf1) := buf.readN 4
    let (pb, buf2) := buf1.readN 4
    let (rest, buf3) := readEntries (ord + 1) n buf2
    ((ord, fromBytesLE ib, fromBytesLE pb) :: rest, buf3)

/-- A decoded string-table record: the transient `__order` and `__pointer`
bookkeeping fields, the persisted `index`, and the `string`. -/
structure SRec where
  order : Nat
  index : Nat
  pointer : Nat
  string : List Nat
deriving DecidableEq

/-- The string loop of `StringTBL._read` (tbl.py:51-52): attach to each
entry the string read at its pointer. -/
def readRecStrings (buf : Buffer) (start_pos : Nat) :
    List (Nat × Nat × Nat) → Option (List SRec)
  | [] => some []
  | (o, i, p) :: rest => do
    let s ← read_string buf start_pos p
    let tl ← readRecStrings buf start_pos rest
    pure (⟨o, i, p, s⟩ :: tl)

/-- `StringTBL._read` generalized over the class's `header` constant
(tbl.py:39-54): read the header, the index entries, then the strings. -/
def tbl_read (hdr : List Nat) (buf : Buffer) : Option (List SRec) := do
  let (start_pos, record_count, buf1) ← read_header hdr 4 buf
  let (entries, buf2) := readEntries 0 record_count buf1
  readRecStrings buf2 start_pos entries

/-- `StringTBL._read` (tbl.py:39-54). -/
def stringTBL_read (buf : Buffer) : Option (List SRec) := tbl_read stringTBLHeader buf

/-- Python `str.split(sep)` for a one-code-point separator: splitting the
empty string yields `[[]]`, matching `"".split(",") == [""]`. -/
def pySplit (sep : Nat) : List Nat → List (List Nat)
  | [] => [[]]
  | c :: rest =>
    match pySplit sep rest with
    | h :: t => if c = sep then [] :: h :: t else (c :: h) :: t
    | [] => [[c]]

/-- The per-record post-processing loop of `StageVoiceTable._read`
(tbl.py:63-68): split the decoded string on `','`; keep part 0 as
`voice_id` and parse parts 1-3 with `int`.  `none` models the `IndexError`
when fewer than 4 parts exist and the `ValueError` when a part is not an
integer; parts beyond the fourth are never inspected. -/
def stageVoiceFields (s : List Nat) : Option (List Nat × Int × Int × Int) :=
  let unpack := pySplit 44 s
  do
    let voice_id ← unpack.get? 0
    let p1 ← unpack.get? 1
    let val1 ← pyInt p1
    let p2 ← unpack.get? 2
    let val2 ← pyInt p2
    let p3 ← unpack.get? 3
    let val3 ← pyInt p3
    pure (voice_id, val1, val2, val3)

/-- `StageVoiceTable._read` (tbl.py:60-69): the inherited string-table read
with its own header, then the comma-splitting post-processing per record. -/
def stageVoiceTable_read (buf : Buffer) : Option (List SRec × List (List Nat × Int × Int × Int)) := do
  let records ← tbl_read stageVoiceHeader buf
  let fields ← records.mapM (fun r => stageVoiceFields r.string)
  pure (records, fields)

/-- The classes of the two source modules plus the implicit `object` root. -/
inductive MBClass where
  | obj
  | gundamDataFile
  | tblData
  | stringTBL
  | stageVoiceTable
deriving DecidableEq

/-- The method names relevant to dispatch of the public I/O surface. -/
inductive Meth where
  | read
  | write
  | read_file
  | write_file
  | dump
  | load
  | impl_read
  | impl_write
deriving DecidableEq

/-- Python method resolution order of each class (single inheritance:
`StageVoiceTable < StringTBL < GundamDataFile < object`,
`TBLData < GundamDataFile < object`). -/
def mro : MBClass → List MBClass
  | .obj => [.obj]
  | .gundamDataFile => [.gundamDataFile, .obj]
  | .tblData => [.tblData, .gundamDataFile, .obj]
  | .stringTBL => [.stringTBL, .gundamDataFile, .obj]
  | .stageVoiceTable => [.stageVoiceTable, .stringTBL, .gundamDataFile, .obj]

/-- Which of these methods each class body defines, read off the sources:
`GundamDataFile` defines `read`, `write`, `read_file`, `write_file`,
`dump`, `load` (data.py:118-143); `StringTBL` defines only `_write` and
`_read` (tbl.py:13, 39); `StageVoiceTable` defines only `_read` (tbl.py:60);
`TBLData` and `object` define none of them. -/
def classDefines : MBClass → Meth → Bool
  | .gundamDataFile, .read => true
  | .gundamDataFile, .write => true
  | .gundamDataFile, .read_file => true
  | .gundamDataFile, .write_file => true
  | .gundamDataFile, .dump => true
  | .gundamDataFile, .load => true
  | .stringTBL, .impl_read => true
  | .stringTBL, .impl_write => true
  | .stageVoiceTable, .impl_read => true
  | _, _ => false

/-- Attribute lookup: the first class in the MRO whose body defines the
method. -/
def resolveMeth (c : MBClass) (m : Meth) : Option MBClass :=
  (mro c).find? (fun k => classDefines k m)

/-- Raised Python exceptions distinguished by the public I/O surface. -/
inductive PyErr where
  | notImplementedError
  | attributeError
deriving DecidableEq

/-- `self.read(buffer)` dispatched on the receiver's class.  The only class
here whose body defines `read` is `GundamDataFile`, whose body is
`raise NotImplementedError` (data.py:135-136); an unresolvable name raises
`AttributeError`. -/
def callRead (c : MBClass) (_buf : Buffer) : Except PyErr (List SRec) :=
  match resolveMeth c .read with
  | some .gundamDataFile => .error .notImplementedError
  | some _ => .error .attributeError
  | Option.none => .error .attributeError

/-- `self.write(records)` dispatched on the receiver's class; the only
defining body is `GundamDataFile.write`, which is
`raise NotImplementedError` (data.py:142-143). -/
def callWrite (c : MBClass) (_records : List (Int × List Nat)) : Except PyErr (List Nat) :=
  match resolveMeth c .write with
  | some .gundamDataFile => .error .notImplementedError
  | some _ => .error .attributeError
  | Option.none => .error .attributeError

/-- `GundamDataFile.read_file` (data.py:130-133): open the file — abstracted
to its byte contents — and call `self.read` on the buffer. -/
def call_read_file (c : MBClass) (fileBytes : List Nat) : Except PyErr (List SRec) :=
  callRead c ⟨fileBytes, 0⟩

/-- `GundamDataFile.write_file` (data.py:138-140): call `self.write` and
write the resulting bytes to the file (abstracted to returning them). -/
def call_write_file (c : MBClass) (records : List (Int × List Nat)) : Except PyErr (List Nat) :=
  callWrite c records

/-- `GundamDataFile.dump` (data.py:118-122): `self.read_file` then
`json.dump`; JSON serialization and path handling are external
collaborators (spec §1), so the modelled result is the records read. -/
def call_dump (c : MBClass) (fileBytes : List Nat) : Except PyErr (List SRec) :=
  call_read_file c fileBytes

/-- `GundamDataFile.load` (data.py:124-128): `json.load` — external, so the
records are taken as given — then `self.write_file`. -/
def call_load (c : MBClass) (records : List (Int × List Nat)) : Except PyErr (List Nat) :=
  call_write_file c records

/-- The order/index/pointer triples that `StringTBL._write` commits to the
index region, starting at order `k` and string offset `start` (the running
`string_start` of tbl.py:27-30). -/
def specPairs (k : Nat) : List (Int × List Nat) → Nat → List (Nat × Nat × Nat)
  | [], _ => []
  | (i, s) :: rest, start => (k, i.toNat, start) :: specPairs (k + 1) rest (start + (utf8Len s + 1))

/-- The fully decoded records that reading back `StringTBL._write` output
yields, starting at order `k` and string offset `start`. -/
def srecsOf (k : Nat) : List (Int × List Nat) → Nat → List SRec
  | [], _ => []
  | (i, s) :: rest, start => ⟨k, i.toNat, start, s⟩ :: srecsOf (k + 1) rest (start + (utf8Len s + 1))

/-- Value of a little-endian list of decimal digit values (proof support). -/
def decValLE : List Nat → Nat
  | [] => 0
  | d :: r => d + 10 * decValLE r

theorem toBytesLE_length : ∀ n v bs, toBytesLE n v = some bs → bs.length = n := by
  intro n
  induction n with
  | zero =>
    intro v bs h
    simp only [toBytesLE] at h
    split at h
    · cases h; rfl
    · cases h
  | succ m ih =>
    intro v bs h
    simp only [toBytesLE, Option.map_eq_some'] at h
    obtain ⟨rest, hrest, hbs⟩ := h
    subst hbs
    simp [ih _ _ hrest]

theorem fromBytesLE_toBytesLE : ∀ n v bs, toBytesLE n v = some bs → fromBytesLE bs = v := by
  intro n
  induction n with
  | zero =>
    intro v bs h
    simp only [toBytesLE] at h
    split at h
    · cases h; simp_all [fromBytesLE]
    · cases h
  | succ m ih =>
    intro v bs h
    simp only [toBytesLE, Option.map_eq_some'] at h
    obtain ⟨rest, hrest, hbs⟩ := h
    subst hbs
    simp only [fromBytesLE, ih _ _ hrest]
    omega

theorem toBytesLE_isSome : ∀ n v, v < 256 ^ n → ∃ bs, toBytesLE n v = some bs := by
  intro n
  induction n with
  | zero =>
    intro v h
    refine ⟨[], ?_⟩
    simp only [pow_zero] at h
    simp [toBytesLE]
    omega
  | succ m ih =>
    intro v h
    have hdiv : v / 256 < 256 ^ m := by
      rw [Nat.div_lt_iff_lt_mul (by norm_num)]
      calc v < 256 ^ (m + 1) := h
        _ = 256 ^ m * 256 := by ring
    obtain ⟨bs, hbs⟩ := ih _ hdiv
    exact ⟨v % 256 :: bs, by simp [toBytesLE, hbs]⟩

theorem utf8DecodeOne_encodeCp (c : Nat) (bs rest : List Nat) (h : utf8EncodeCp c = some bs) :
    utf8DecodeOne (bs ++ rest) = some (c, rest) := by
  unfold utf8EncodeCp at h
  split_ifs at h with h1 h2 h3 h4 h5
  · cases h
    simp only [List.cons_append, List.nil_append, utf8DecodeOne.eq_def]
    rw [if_pos h1]
  · cases h
    simp only [List.cons_append, List.nil_append, utf8DecodeOne.eq_def]
    rw [if_neg (by omega), if_neg (by omega), if_pos (by omega),
      if_pos (by constructor <;> omega)]
    have hv : (0xC0 + c / 0x40 - 0xC0) * 0x40 + (0x80 + c % 0x40 - 0x80) = c := by omega
    rw [hv]
  · cases h
    simp only [List.cons_append, List.nil_append, utf8DecodeOne.eq_def]
    rw [if_neg (by omega), if_neg (by omega), if_neg (by omega), if_pos (by omega),
      if_pos ?side]
    case side =>
      refine ⟨?_, by omega, by omega⟩
      split_ifs <;> omega
    have hv : (0xE0 + c / 0x1000 - 0xE0) * 0x1000 + (0x80 + c / 0x40 % 0x40 - 0x80) * 0x40 +
        (0x80 + c % 0x40 - 0x80) = c := by omega
    rw [hv]
  · cases h
    simp only [List.cons_append, List.nil_append, utf8DecodeOne.eq_def]
    rw [if_neg (by omega), if_neg (by omega), if_neg (by omega), if_neg (by omega),
      if_pos (by omega), if_pos ?side2]
    case side2 =>
      refine ⟨?_, by omega, by omega, by omega⟩
      split_ifs <;> omega
    have hv : (0xF0 + c / 0x40000 - 0xF0) * 0x40000 + (0x80 + c / 0x1000 % 0x40 - 0x80) * 0x1000 +
        (0x80 + c / 0x40 % 0x40 - 0x80) * 0x40 + (0x80 + c % 0x40 - 0x80) = c := by omega
    rw [hv]

theorem utf8EncodeCp_ne_nil (c : Nat) (bs : List Nat) (h : utf8EncodeCp c = some bs) :
    bs ≠ [] := by
  unfold utf8EncodeCp at h
  split_ifs at h <;> cases h <;> simp

theorem utf8DecodeOne_length : ∀ (l : List Nat) (c : Nat) (r : List Nat),
    utf8DecodeOne l = some (c, r) → r.length < l.length := by
  intro l c r h
  cases l with
  | nil => simp [utf8DecodeOne] at h
  | cons b rest =>
    rw [utf8DecodeOne.eq_def] at h
    cases rest with
    | nil =>
      dsimp only at h
      split_ifs at h <;>
        first
          | (simp only [Option.some.injEq, Prod.mk.injEq] at h
             obtain ⟨rfl, rfl⟩ := h
             simp only [List.length_cons]
             omega)
          | simp at h
    | cons b1 r1 =>
      cases r1 with
      | nil =>
        dsimp only at h
        split_ifs at h <;>
          first
            | (simp only [Option.some.injEq, Prod.mk.injEq] at h
               obtain ⟨rfl, rfl⟩ := h
               simp only [List.length_cons]
               omega)
            | simp at h
      | cons b2 r2 =>
        cases r2 with
        | nil =>
          dsimp only at h
          split_ifs at h <;>
            first
              | (simp only [Option.some.injEq, Prod.mk.injEq] at h
                 obtain ⟨rfl, rfl⟩ := h
                 simp only [List.length_cons]
                 omega)
              | simp at h
        | cons b3 r3 =>
          dsimp only at h
          split_ifs at h <;>
            first
              | (simp only [Option.some.injEq, Prod.mk.injEq] at h
                 obtain ⟨rfl, rfl⟩ := h
                 simp only [List.length_cons]
                 omega)
              | simp at h

theorem utf8DecodeAux_fuel : ∀ f1 : Nat, ∀ l : List Nat, ∀ f2 : Nat,
    l.length ≤ f1 → l.length ≤ f2 → utf8DecodeAux f1 l = utf8DecodeAux f2 l := by
  intro f1
  induction f1 with
  | zero =>
    intro l f2 h1 _
    have hl : l = [] := by
      cases l with
      | nil => rfl
      | cons a t => simp at h1
    subst hl
    cases f2 <;> rfl
  | succ g ih =>
    intro l f2 h1 h2
    cases l with
    | nil => cases f2 <;> rfl
    | cons b rest =>
      cases f2 with
      | zero => simp at h2
      | succ g2 =>
        simp only [utf8DecodeAux]
        cases hone : utf8DecodeOne (b :: rest) with
        | none => rfl
        | some pr =>
          obtain ⟨c, r⟩ := pr
          have hr := utf8DecodeOne_length (b :: rest) c r hone
          simp only [List.length_cons] at hr h1 h2
          dsimp only
          rw [ih r g2 (by omega) (by omega)]

theorem utf8Decode_cons_one (b : Nat) (rest : List Nat) (c : Nat) (r : List Nat)
    (hone : utf8DecodeOne (b :: rest) = some (c, r)) :
    utf8Decode (b :: rest) = (utf8Decode r).map (fun t => c :: t) := by
  have hr := utf8DecodeOne_length (b :: rest) c r hone
  simp only [List.length_cons] at hr
  simp only [utf8Decode, List.length_cons, utf8DecodeAux, hone]
  rw [utf8DecodeAux_fuel rest.length r r.length (by omega) (le_refl _)]

theorem utf8Decode_encodeCp (c : Nat) (bs rest : List Nat) (h : utf8EncodeCp c = some bs) :
    utf8Decode (bs ++ rest) = (utf8Decode rest).map (fun t => c :: t) := by
  obtain ⟨x, bs', rfl⟩ := List.exists_cons_of_ne_nil (utf8EncodeCp_ne_nil c bs h)
  have hone := utf8DecodeOne_encodeCp c _ rest h
  simp only [List.cons_append] at hone
  rw [List.cons_append]
  exact utf8Decode_cons_one x (bs' ++ rest) c rest hone

theorem utf8Decode_encode : ∀ s bs, utf8Encode s = some bs → utf8Decode bs = some s := by
  intro s
  induction s with
  | nil =>
    intro bs h
    simp only [utf8Encode] at h
    cases h
    rfl
  | cons c rest ih =>
    intro bs h
    simp only [utf8Encode, Option.bind_eq_bind, Option.bind_eq_some'] at h
    obtain ⟨bsc, hbsc, tail, htail, hbs⟩ := h
    cases hbs
    rw [utf8Decode_encodeCp c bsc tail hbsc, ih tail htail]
    rfl

theorem utf8EncodeCp_zero_free (c : Nat) (bs : List Nat) (h : utf8EncodeCp c = some bs)
    (hc : c ≠ 0) : ¬ 0 ∈ bs := by
  unfold utf8EncodeCp at h
  split_ifs at h <;> cases h <;> intro hmem <;>
    simp only [List.mem_cons, List.not_mem_nil, or_false] at hmem <;> omega

theorem utf8Encode_zero_free : ∀ s bs, utf8Encode s = some bs → ¬ 0 ∈ s → ¬ 0 ∈ bs := by
  intro s
  induction s with
  | nil =>
    intro bs h _
    simp only [utf8Encode] at h
    cases h
    simp
  | cons c rest ih =>
    intro bs h hz
    simp only [utf8Encode, Option.bind_eq_bind, Option.bind_eq_some'] at h
    obtain ⟨bsc, hbsc, tail, htail, hbs⟩ := h
    cases hbs
    simp only [List.mem_cons, not_or] at hz
    have h1 := utf8EncodeCp_zero_free c bsc hbsc (fun e => hz.1 e.symm)
    have h2 := ih tail htail hz.2
    simp only [List.mem_append]
    intro hmem
    cases hmem with
    | inl hh => exact h1 hh
    | inr hh => exact h2 hh

theorem scanNullTerm_append (bs rest : List Nat) (h : ¬ 0 ∈ bs) :
    scanNullTerm (bs ++ 0 :: rest) = some bs := by
  induction bs with
  | nil => simp [scanNullTerm]
  | cons b tl ih =>
    simp only [List.mem_cons, not_or] at h
    simp only [List.cons_append, scanNullTerm, List.append_eq]
    rw [if_neg (fun e => h.1 e.symm), ih h.2]
    rfl

theorem scanNullTerm_eq_takeWhile : ∀ l : List Nat, 0 ∈ l →
    scanNullTerm l = some (l.takeWhile (fun b => b != 0)) := by
  intro l
  induction l with
  | nil => intro h; cases h
  | cons b tl ih =>
    intro h
    simp only [scanNullTerm, List.takeWhile_cons]
    by_cases hb : b = 0
    · subst hb
      simp
    · rw [if_neg hb]
      have htl : 0 ∈ tl := by
        cases h with
        | head => exact absurd rfl hb
        | tail _ hh => exact hh
      rw [ih htl]
      simp [hb]

theorem decDigitsLE_lt10 : ∀ f n d, d ∈ decDigitsLE f n → d < 10 := by
  intro f
  induction f with
  | zero => intro n d h; simp [decDigitsLE] at h
  | succ g ih =>
    intro n d h
    cases n with
    | zero => simp [decDigitsLE] at h
    | succ m =>
      simp only [decDigitsLE, List.mem_cons] at h
      cases h with
      | inl he => subst he; omega
      | inr ht => exact ih _ _ ht

theorem decValLE_decDigitsLE : ∀ f n, n ≤ f → decValLE (decDigitsLE f n) = n := by
  intro f
  induction f with
  | zero =>
    intro n h
    have : n = 0 := by omega
    subst this
    rfl
  | succ g ih =>
    intro n h
    cases n with
    | zero => rfl
    | succ m =>
      simp only [decDigitsLE, decValLE]
      have hd : (m + 1) / 10 ≤ g := by omega
      rw [ih _ hd]
      omega

theorem decDigitsLE_length : ∀ f n k, n < 10 ^ k → (decDigitsLE f n).length ≤ k := by
  intro f
  induction f with
  | zero => intro n k _; simp [decDigitsLE]
  | succ g ih =>
    intro n k hk
    cases n with
    | zero => simp [decDigitsLE]
    | succ m =>
      cases k with
      | zero => simp at hk
      | succ j =>
        simp only [decDigitsLE, List.length_cons]
        have : (m + 1) / 10 < 10 ^ j := by
          rw [Nat.div_lt_iff_lt_mul (by norm_num)]
          calc m + 1 < 10 ^ (j + 1) := hk
            _ = 10 ^ j * 10 := by ring
        have := ih ((m + 1) / 10) j this
        omega

theorem decDigitsLE_length_pos : ∀ f n, 0 < n → n ≤ f → 0 < (decDigitsLE f n).length := by
  intro f n h1 h2
  cases f with
  | zero => omega
  | succ g =>
    cases n with
    | zero => omega
    | succ m => simp [decDigitsLE]

theorem foldl_digits_reverse : ∀ ds : List Nat, ∀ acc : Nat,
    List.foldl (fun a c => a * 10 + (c - 48)) acc (ds.reverse.map (· + 48)) =
      acc * 10 ^ ds.length + decValLE ds := by
  intro ds
  induction ds with
  | nil => intro acc; simp [decValLE]
  | cons d tl ih =>
    intro acc
    simp only [List.reverse_cons, List.map_append, List.map_cons, List.map_nil,
      List.foldl_append, List.foldl_cons, List.foldl_nil, ih acc, decValLE, List.length_cons]
    have : d + 48 - 48 = d := by omega
    rw [this]
    ring

theorem parseDigitsGo_digits : ∀ ds : List Nat, ∀ acc : Nat, (∀ c ∈ ds, isDigitCp c = true) →
    parseDigitsGo ds acc = some (List.foldl (fun a c => a * 10 + (c - 48)) acc ds) := by
  intro ds
  induction ds with
  | nil => intro acc _; rfl
  | cons c tl ih =>
    intro acc hd
    have hc : isDigitCp c = true := hd c (List.mem_cons_self c tl)
    rw [parseDigitsGo.eq_def]
    dsimp only
    rw [if_pos hc, List.foldl_cons]
    exact ih _ (fun x hx => hd x (List.mem_cons_of_mem c hx))

theorem pyIntCore_digits : ∀ ds : List Nat, ds ≠ [] → (∀ c ∈ ds, isDigitCp c = true) →
    pyIntCore ds = some (List.foldl (fun a c => a * 10 + (c - 48)) 0 ds) := by
  intro ds hne hd
  cases ds with
  | nil => exact absurd rfl hne
  | cons c tl =>
    have hc : isDigitCp c = true := hd c (List.mem_cons_self c tl)
    simp only [pyIntCore, hc, if_true, List.foldl_cons, Nat.zero_mul, Nat.zero_add]
    rw [parseDigitsGo_digits tl (c - 48) (fun x hx => hd x (List.mem_cons_of_mem c hx))]

theorem stripWs_of_no_ws : ∀ s : List Nat, (∀ c ∈ s, isWsCp c = false) → stripWs s = s := by
  intro s h
  unfold stripWs
  have h1 : s.dropWhile isWsCp = s := by
    cases s with
    | nil => rfl
    | cons c tl => rw [List.dropWhile_cons_of_neg (by simp [h c (List.mem_cons_self c tl)])]
  rw [h1]
  have h2 : s.reverse.dropWhile isWsCp = s.reverse := by
    cases hs : s.reverse with
    | nil => rfl
    | cons c tl =>
      have hc : c ∈ s := by
        rw [← List.mem_reverse, hs]
        exact List.mem_cons_self c tl
      rw [List.dropWhile_cons_of_neg (by simp [h c hc])]
  rw [h2, List.reverse_reverse]

theorem pyInt_digits : ∀ s : List Nat, s ≠ [] → (∀ c ∈ s, isDigitCp c = true) →
    pyInt s = some ((List.foldl (fun a c => a * 10 + (c - 48)) 0 s : Nat) : Int) := by
  intro s hne hd
  have hws : ∀ c ∈ s, isWsCp c = false := by
    intro c hc
    have := hd c hc
    simp only [isDigitCp, Bool.and_eq_true, decide_eq_true_eq] at this
    simp only [isWsCp]
    simp only [Bool.or_eq_false_iff, beq_eq_false_iff_ne, ne_eq]
    omega
  unfold pyInt
  rw [stripWs_of_no_ws s hws]
  cases s with
  | nil => exact absurd rfl hne
  | cons c tl =>
    have hc : isDigitCp c = true := hd c (List.mem_cons_self c tl)
    have hc43 : c ≠ 43 := by
      simp only [isDigitCp, Bool.and_eq_true, decide_eq_true_eq] at hc
      omega
    have hc45 : c ≠ 45 := by
      simp only [isDigitCp, Bool.and_eq_true, decide_eq_true_eq] at hc
      omega
    split
    next heq => exact absurd (List.cons.injEq .. ▸ heq).1 hc43
    next heq => exact absurd (List.cons.injEq .. ▸ heq).1 hc45
    next t h1 h2 =>
      rw [pyIntCore_digits (c :: tl) hne hd]
      rfl

theorem fmtPad_digits : ∀ w n c, c ∈ fmtPad w n → isDigitCp c = true := by
  intro w n c h
  simp only [fmtPad, List.mem_append, List.mem_replicate] at h
  cases h with
  | inl hrep =>
    rw [hrep.2]
    rfl
  | inr hds =>
    split_ifs at hds with hn
    · simp only [List.mem_singleton] at hds
      rw [hds]
      rfl
    · simp only [List.mem_map, List.mem_reverse] at hds
      obtain ⟨d, hd, rfl⟩ := hds
      have := decDigitsLE_lt10 n n d hd
      simp only [isDigitCp, Bool.and_eq_true, decide_eq_true_eq]
      omega

theorem fmtPad_ne_nil : ∀ w n, fmtPad w n ≠ [] := by
  intro w n
  simp only [fmtPad]
  split_ifs with hn
  · simp
  · intro h
    rw [List.append_eq_nil] at h
    have h2 := h.2
    rw [List.map_eq_nil, List.reverse_eq_nil_iff] at h2
    have := decDigitsLE_length_pos n n (by omega) (le_refl n)
    rw [h2] at this
    simp at this

theorem foldl_step_replicate48 : ∀ k a, List.foldl (fun a c => a * 10 + (c - 48)) a
    (List.replicate k 48) = a * 10 ^ k := by
  intro k
  induction k with
  | zero => intro a; simp
  | succ j ih =>
    intro a
    simp only [List.replicate_succ, List.foldl_cons, ih]
    have : a * 10 + (48 - 48) = a * 10 := by omega
    rw [this]
    ring

theorem fmtPad_foldl : ∀ w n, List.foldl (fun a c => a * 10 + (c - 48)) 0 (fmtPad w n) = n := by
  intro w n
  simp only [fmtPad, List.foldl_append, foldl_step_replicate48, Nat.zero_mul]
  split_ifs with hn
  · subst hn
    rfl
  · rw [foldl_digits_reverse, decValLE_decDigitsLE n n (le_refl n)]
    simp

theorem pyInt_fmtPad : ∀ w n, pyInt (fmtPad w n) = some (n : Int) := by
  intro w n
  rw [pyInt_digits (fmtPad w n) (fmtPad_ne_nil w n) (fmtPad_digits w n), fmtPad_foldl]

theorem fmtPad_length : ∀ w n, 1 ≤ w → n < 10 ^ w → (fmtPad w n).length = w := by
  intro w n hw hn
  simp only [fmtPad, List.length_append, List.length_replicate]
  split_ifs with h0
  · simp only [List.length_singleton]
    omega
  · simp only [List.length_map, List.length_reverse]
    have hle := decDigitsLE_length n n w hn
    omega

theorem toBytesLE_one : ∀ v, v < 256 → toBytesLE 1 v = some [v] := by
  intro v hv
  simp only [toBytesLE]
  rw [if_pos (by omega)]
  simp only [Option.map_some']
  have : v % 256 = v := by omega
  rw [this]

theorem toBytesLE_two : ∀ v, v < 65536 → toBytesLE 2 v = some [v % 256, v / 256] := by
  intro v hv
  simp only [toBytesLE]
  rw [if_pos (by omega)]
  simp only [Option.map_some']
  have h1 : v / 256 % 256 = v / 256 := by omega
  rw [h1]

theorem toBytesLE_four : ∀ v, v < 4294967296 →
    toBytesLE 4 v = some [v % 256, v / 256 % 256, v / 65536 % 256, v / 16777216] := by
  intro v hv
  simp only [toBytesLE]
  rw [if_pos (by omega)]
  simp only [Option.map_some']
  have e1 : v / 256 / 256 % 256 = v / 65536 % 256 := by omega
  have e2 : v / 256 / 256 / 256 % 256 = v / 16777216 := by omega
  rw [e1, e2]

theorem fromBytesLE_two : ∀ a b : Nat, fromBytesLE [a, b] = a + 256 * b := by
  intro a b
  simp only [fromBytesLE]
  omega

/-- C7 (amended): with the letter restricted to code points below 0x10000
(`ord(...).to_bytes(2, ...)` overflows otherwise), the series string
round-trips through `write_series_bytes` and `read_series_bytes`. -/
theorem series_roundtrip (letter number : Nat) (hl : letter < 65536) (hn : number ≤ 9999) :
    ∃ bs : List Nat, write_series_bytes (letter :: fmtPad 4 number) = some bs ∧
      bs.length = 4 ∧ read_series_bytes bs = some (letter :: fmtPad 4 number) := by
  have e1 : fromBytesLE [number % 256, number / 256] = number := by
    rw [fromBytesLE_two]; omega
  have e2 : fromBytesLE [letter % 256, letter / 256] = letter := by
    rw [fromBytesLE_two]; omega
  refine ⟨[number % 256, number / 256, letter % 256, letter / 256], ?_, rfl, ?_⟩
  · simp only [write_series_bytes, List.drop_succ_cons, List.drop_zero, pyInt_fmtPad,
      Option.bind_eq_bind, Option.some_bind]
    rw [if_pos (by positivity)]
    simp only [Int.toNat_natCast]
    rw [toBytesLE_two number (by omega)]
    simp only [List.get?_cons_zero, Option.some_bind]
    rw [toBytesLE_two letter hl]
    rfl
  · simp only [read_series_bytes, List.take_succ_cons, List.take_zero, List.drop_succ_cons,
      List.drop_zero, e1, e2]
    rw [if_pos (by omega)]

theorem utf8EncodeCp_ascii : ∀ c, c < 128 → utf8EncodeCp c = some [c] := by
  intro c hc
  unfold utf8EncodeCp
  rw [if_pos hc]

theorem write_guid_canonical (g t series model spec : Nat)
    (hg : g < 128) (ht : t < 128) (hse : series ≤ 9999) (hmo : model ≤ 999) (hsp : spec ≤ 99) :
    write_guid_bytes (some (g :: fmtPad 4 series ++ t :: fmtPad 3 model ++ fmtPad 2 spec)) =
      some [series % 256, series / 256, g, 0, t, spec, model % 256, model / 256] := by
  have hp4 : (fmtPad 4 series).length = 4 := fmtPad_length 4 series (by norm_num) (by omega)
  have hp3 : (fmtPad 3 model).length = 3 := fmtPad_length 3 model (by norm_num) (by omega)
  have hp2 : (fmtPad 2 spec).length = 2 := fmtPad_length 2 spec (by norm_num) (by omega)
  have hu : g :: fmtPad 4 series ++ t :: fmtPad 3 model ++ fmtPad 2 spec =
      g :: (fmtPad 4 series ++ (t :: (fmtPad 3 model ++ fmtPad 2 spec))) := by
    simp [List.append_assoc]
  have ha : ((g :: fmtPad 4 series ++ t :: fmtPad 3 model ++ fmtPad 2 spec).drop 1).take 4 =
      fmtPad 4 series := by
    rw [hu]
    rw [show List.drop 1 (g :: (fmtPad 4 series ++ (t :: (fmtPad 3 model ++ fmtPad 2 spec)))) =
      fmtPad 4 series ++ (t :: (fmtPad 3 model ++ fmtPad 2 spec)) from rfl]
    rw [List.take_left' hp4]
  have hb : (g :: fmtPad 4 series ++ t :: fmtPad 3 model ++ fmtPad 2 spec).get? 0 = some g := by
    rw [hu]
    rfl
  have hc : (g :: fmtPad 4 series ++ t :: fmtPad 3 model ++ fmtPad 2 spec).get? 5 = some t := by
    rw [hu]
    rw [show (g :: (fmtPad 4 series ++ (t :: (fmtPad 3 model ++ fmtPad 2 spec)))).get? 5 =
      (fmtPad 4 series ++ (t :: (fmtPad 3 model ++ fmtPad 2 spec))).get? 4 from rfl]
    rw [List.get?_append_right (by omega)]
    rw [hp4]
    rfl
  have hd : ((g :: fmtPad 4 series ++ t :: fmtPad 3 model ++ fmtPad 2 spec).drop 9).take 2 =
      fmtPad 2 spec := by
    rw [hu]
    rw [show List.drop 9 (g :: (fmtPad 4 series ++ (t :: (fmtPad 3 model ++ fmtPad 2 spec)))) =
      List.drop 8 (fmtPad 4 series ++ (t :: (fmtPad 3 model ++ fmtPad 2 spec))) from rfl]
    have h88 : List.drop 8 (fmtPad 4 series ++ (t :: (fmtPad 3 model ++ fmtPad 2 spec))) =
        List.drop 4 (List.drop 4 (fmtPad 4 series ++ (t :: (fmtPad 3 model ++ fmtPad 2 spec)))) := by
      rw [List.drop_drop]
    rw [h88, List.drop_left' hp4]
    rw [show List.drop 4 (t :: (fmtPad 3 model ++ fmtPad 2 spec)) =
      List.drop 3 (fmtPad 3 model ++ fmtPad 2 spec) from rfl]
    rw [List.drop_left' hp3]
    exact List.take_of_length_le (by omega)
  have he : ((g :: fmtPad 4 series ++ t :: fmtPad 3 model ++ fmtPad 2 spec).drop 6).take 3 =
      fmtPad 3 model := by
    rw [hu]
    rw [show List.drop 6 (g :: (fmtPad 4 series ++ (t :: (fmtPad 3 model ++ fmtPad 2 spec)))) =
      List.drop 5 (fmtPad 4 series ++ (t :: (fmtPad 3 model ++ fmtPad 2 spec))) from rfl]
    have h54 : List.drop 5 (fmtPad 4 series ++ (t :: (fmtPad 3 model ++ fmtPad 2 spec))) =
        List.drop 1 (List.drop 4 (fmtPad 4 series ++ (t :: (fmtPad 3 model ++ fmtPad 2 spec)))) := by
      rw [List.drop_drop]
    rw [h54, List.drop_left' hp4]
    rw [show List.drop 1 (t :: (fmtPad 3 model ++ fmtPad 2 spec)) =
      fmtPad 3 model ++ fmtPad 2 spec from rfl]
    rw [List.take_left' hp3]
  unfold write_guid_bytes
  dsimp only
  rw [if_neg (by rw [hu]; simp)]
  simp only [Option.bind_eq_bind, ha, hb, hc, hd, he, pyInt_fmtPad, Option.some_bind]
  simp only [show (0 : Int) ≤ (series : Int) from Int.natCast_nonneg series,
    show (0 : Int) ≤ (spec : Int) from Int.natCast_nonneg spec,
    show (0 : Int) ≤ (model : Int) from Int.natCast_nonneg model, if_true, Int.toNat_natCast,
    toBytesLE_two series (by omega : series < 65536),
    toBytesLE_two model (by omega : model < 65536),
    toBytesLE_one spec (by omega : spec < 256),
    utf8EncodeCp_ascii g hg, utf8EncodeCp_ascii t ht, Option.some_bind]
  rfl

/-- C3 (amended): an 8-byte pattern round-trips through `read_guid_bytes`
then `write_guid_bytes` exactly when its reserved byte 3 is zero and each
packed field is within the width of its decimal rendering (series ≤ 9999,
printable-ASCII code points below 0x80, spec ≤ 99, model ≤ 999); the
all-zero pattern maps to `None` and back to eight zero bytes. -/
theorem guid_roundtrip (b0 b1 b2 b3 b4 b5 b6 b7 : Nat)
    (hb0 : b0 < 256) (hb6 : b6 < 256) (hz3 : b3 = 0)
    (hse : b0 + 256 * b1 ≤ 9999) (hb2 : b2 < 128) (hb4 : b4 < 128)
    (hb5 : b5 ≤ 99) (hmo : b6 + 256 * b7 ≤ 999) :
    ∃ v, read_guid_bytes [b0, b1, b2, b3, b4, b5, b6, b7] = some v ∧
      write_guid_bytes v = some [b0, b1, b2, b3, b4, b5, b6, b7] := by
  subst hz3
  by_cases hzero : [b0, b1, b2, 0, b4, b5, b6, b7] = List.replicate 8 0
  · refine ⟨Option.none, ?_, ?_⟩
    · unfold read_guid_bytes
      rw [if_pos hzero]
    · rw [hzero]
      rfl
  · refine ⟨some (b2 :: fmtPad 4 (b0 + 256 * b1) ++ b4 :: fmtPad 3 (b6 + 256 * b7) ++
      fmtPad 2 b5), ?_, ?_⟩
    · unfold read_guid_bytes
      rw [if_neg hzero]
      simp only [Option.bind_eq_bind]
      rw [show ([b0, b1, b2, 0, b4, b5, b6, b7].take 2) = [b0, b1] from rfl,
        show ([b0, b1, b2, 0, b4, b5, b6, b7].get? 2) = some b2 from rfl,
        show ([b0, b1, b2, 0, b4, b5, b6, b7].get? 4) = some b4 from rfl,
        show ([b0, b1, b2, 0, b4, b5, b6, b7].get? 5) = some b5 from rfl,
        show (([b0, b1, b2, 0, b4, b5, b6, b7].drop 6).take 2) = [b6, b7] from rfl,
        fromBytesLE_two, fromBytesLE_two]
      rfl
    · rw [write_guid_canonical b2 b4 (b0 + 256 * b1) (b6 + 256 * b7) b5 hb2 hb4 hse hmo hb5]
      have e0 : (b0 + 256 * b1) % 256 = b0 := by omega
      have e1 : (b0 + 256 * b1) / 256 = b1 := by omega
      have e6 : (b6 + 256 * b7) % 256 = b6 := by omega
      have e7 : (b6 + 256 * b7) / 256 = b7 := by omega
      rw [e0, e1, e6, e7]

/-- The claim that every 8-byte input survives decode-then-encode is false:
on `[0,0,0,1,0,0,0,0]` (reserved byte 3 set) the decoder ignores byte 3 and
the encoder writes it back as zero, so the composition returns eight zero
bytes, not the original input. -/
theorem guid_roundtrip_cex :
    (read_guid_bytes [0, 0, 0, 1, 0, 0, 0, 0]).bind write_guid_bytes =
      some [0, 0, 0, 0, 0, 0, 0, 0] ∧
    ([0, 0, 0, 0, 0, 0, 0, 0] : List Nat) ≠ [0, 0, 0, 1, 0, 0, 0, 0] := by
  constructor
  · rfl
  · decide

/-- Witness for `guid_roundtrip` at the concrete unit "A0042B01607",
packed as `[42, 0, 65, 0, 66, 7, 16, 0]`. -/
theorem guid_roundtrip_witness :
    ∃ v, read_guid_bytes [42, 0, 65, 0, 66, 7, 16, 0] = some v ∧
      write_guid_bytes v = some [42, 0, 65, 0, 66, 7, 16, 0] :=
  guid_roundtrip 42 0 65 0 66 7 16 0 (by decide) (by decide) rfl (by decide) (by decide)
    (by decide) (by decide) (by decide)

/-- The claim that every single-character letter round-trips is false: for
the astral letter U+1F600 the encoder's `ord(letter).to_bytes(2, "little")`
overflows, so `write_series_bytes` raises instead of producing 4 bytes. -/
theorem series_roundtrip_cex : write_series_bytes (128512 :: fmtPad 4 0) = none := by
  rfl

/-- Witness for `series_roundtrip` at letter "v" (118) and number 42. -/
theorem series_roundtrip_witness :
    ∃ bs : List Nat, write_series_bytes (118 :: fmtPad 4 42) = some bs ∧
      bs.length = 4 ∧ read_series_bytes bs = some (118 :: fmtPad 4 42) :=
  series_roundtrip 118 42 (by decide) (by decide)

/-- C1: on schema `{"s": "len_string"}` with record `{"s": "hello"}`,
`write_record` emits the encoding of the field NAME "s" (bytes `[1, 115]`),
not the encoding of the record's value "hello" (`[5, 104, 101, 108, 108,
111]`): the `len_string`/`null_string`/`guid`/`series_guid` branches pass
`field` to the encoders instead of `record[field]`. -/
theorem write_record_encodes_field_name :
    write_record [([115], tagLenString)] [([115], PyVal.str [104, 101, 108, 108, 111])] =
      some [1, 115] ∧
    write_string_length [104, 101, 108, 108, 111] = some [5, 104, 101, 108, 108, 111] ∧
    ([1, 115] : List Nat) ≠ [5, 104, 101, 108, 108, 111] := by
  refine ⟨rfl, rfl, by decide⟩

/-- C4: `write_string_length` writes `len(string)` — the number of code
points — as the length byte, not the UTF-8 byte length: on "é" (code point
233, UTF-8 `[195, 169]`) it emits `[1, 195, 169]` with length byte 1 ≠ 2,
and `read_string_length` on the produced bytes raises a decode error
instead of returning "é". -/
theorem write_string_length_counts_chars :
    write_string_length [233] = some [1, 195, 169] ∧
    utf8Encode [233] = some [195, 169] ∧
    read_string_length ⟨[1, 195, 169], 0⟩ = Option.none := by
  refine ⟨rfl, rfl, rfl⟩

/-- C5 (amended): a schema field whose type tag matches no dispatch branch
(does not start with "int" or "uint" and is none of "len_string",
"null_string", "guid", "series_guid") is silently skipped by
`read_record`: no error is raised, no bytes are consumed, and the field is
omitted from the returned record. -/
theorem read_record_skips_unknown_tag (field field_type : List Nat)
    (rest : List (List Nat × List Nat)) (buf : Buffer) (start_pos : Nat)
    (h1 : tagInt.isPrefixOf field_type = false)
    (h2 : tagUint.isPrefixOf field_type = false)
    (h3 : field_type ≠ tagLenString) (h4 : field_type ≠ tagNullString)
    (h5 : field_type ≠ tagGuid) (h6 : field_type ≠ tagSeriesGuid) :
    read_record start_pos ((field, field_type) :: rest) buf =
      read_record start_pos rest buf := by
  rw [read_record.eq_def]
  dsimp only
  rw [if_neg (by simp [h1]), if_neg (by simp [h2]), if_neg h3, if_neg h4, if_neg h5, if_neg h6]

/-- The claim that an unknown field-type tag is fatal is false: on schema
`{"x": "bogus"}` `read_record` succeeds, returning an empty record (the
field "x" silently omitted) and an untouched buffer. -/
theorem read_record_unknown_tag_cex :
    read_record 0 [([120], [98, 111, 103, 117, 115])] ⟨[1, 2, 3], 0⟩ =
      some ([], ⟨[1, 2, 3], 0⟩) := by
  rfl

/-- Witness for `read_record_skips_unknown_tag` at the tag "other". -/
theorem read_record_skips_unknown_tag_witness :
    read_record 0 [([121], [111, 116, 104, 101, 114])] ⟨[9, 9], 0⟩ =
      read_record 0 [] ⟨[9, 9], 0⟩ :=
  read_record_skips_unknown_tag [121] [111, 116, 104, 101, 114] [] ⟨[9, 9], 0⟩ 0
    rfl rfl (by decide) (by decide) (by decide) (by decide)

/-- C6 (amended): `read_string_null_term` seeks to the recorded base
position `_start_pos` plus the given offset — not to the current cursor —
and, whenever a `0x00` exists at or after that absolute position, returns
the UTF-8 decoding of exactly the bytes before the first `0x00`, leaving
the cursor just past the terminator.  The right-hand side does not mention
the cursor `pos`, so the result is independent of it. -/
theorem read_string_null_term_from_base (data : List Nat) (pos start_pos offset : Nat)
    (h : 0 ∈ data.drop (offset + start_pos)) :
    read_string_null_term start_pos ⟨data, pos⟩ offset =
      (utf8Decode ((data.drop (offset + start_pos)).takeWhile (fun b => b != 0))).map
        (fun s => (s, ⟨data, offset + start_pos +
          ((data.drop (offset + start_pos)).takeWhile (fun b => b != 0)).length + 1⟩)) := by
  unfold read_string_null_term
  rw [scanNullTerm_eq_takeWhile _ h]

/-- The claim that the string is read from the current cursor plus the
offset is false: with buffer `"A\x00B\x00"`, cursor at 2 and offset 0 the
call returns "A" (read from the base position 0), not the "B" that sits at
the cursor. -/
theorem read_string_null_term_cursor_cex :
    (read_string_null_term 0 ⟨[65, 0, 66, 0], 2⟩ 0).map Prod.fst = some [65] ∧
    (some [65] : Option (List Nat)) ≠ some [66] := by
  refine ⟨rfl, by decide⟩

/-- Witness for `read_string_null_term_from_base` on buffer `"Hi\x00"` with
the cursor parked past the end. -/
theorem read_string_null_term_from_base_witness :
    read_string_null_term 0 ⟨[72, 105, 0], 5⟩ 0 = some ([72, 105], ⟨[72, 105, 0], 3⟩) := by
  rw [read_string_null_term_from_base [72, 105, 0] 5 0 0 (by decide)]
  rfl

/-- C10: the public I/O surface of both table classes always fails:
`read` and `write` resolve through the MRO to `GundamDataFile`'s bodies,
which raise `NotImplementedError` — `StringTBL` and `StageVoiceTable`
define only `_read`/`_write` and never override them — and therefore
`read_file`, `write_file`, `dump` and `load` fail on every call too. -/
theorem tbl_public_io_not_implemented :
    ∀ (buf : Buffer) (records : List (Int × List Nat)) (fileBytes : List Nat),
      callRead MBClass.stringTBL buf = Except.error PyErr.notImplementedError ∧
      callWrite MBClass.stringTBL records = Except.error PyErr.notImplementedError ∧
      callRead MBClass.stageVoiceTable buf = Except.error PyErr.notImplementedError ∧
      callWrite MBClass.stageVoiceTable records = Except.error PyErr.notImplementedError ∧
      call_read_file MBClass.stringTBL fileBytes = Except.error PyErr.notImplementedError ∧
      call_write_file MBClass.stringTBL records = Except.error PyErr.notImplementedError ∧
      call_dump MBClass.stringTBL fileBytes = Except.error PyErr.notImplementedError ∧
      call_load MBClass.stringTBL records = Except.error PyErr.notImplementedError ∧
      call_read_file MBClass.stageVoiceTable fileBytes = Except.error PyErr.notImplementedError ∧
      call_write_file MBClass.stageVoiceTable records = Except.error PyErr.notImplementedError ∧
      call_dump MBClass.stageVoiceTable fileBytes = Except.error PyErr.notImplementedError ∧
      call_load MBClass.stageVoiceTable records = Except.error PyErr.notImplementedError ∧
      resolveMeth MBClass.stringTBL Meth.read = some MBClass.gundamDataFile ∧
      resolveMeth MBClass.stageVoiceTable Meth.write = some MBClass.gundamDataFile := by
  intro buf records fileBytes
  exact ⟨rfl, rfl, rfl, rfl, rfl, rfl, rfl, rfl, rfl, rfl, rfl, rfl, rfl, rfl⟩

/-- C8 (amended): the voice-cue post-processing splits the string on ','
and is fatal when fewer than 4 parts exist or when one of parts 1-3 does
not parse as an integer, but parts beyond the fourth are silently ignored,
not fatal: with at least 4 parts the decode is exactly the integer-parsing
of parts 1-3 around part 0, whatever follows. -/
theorem stageVoiceFields_spec (s : List Nat) :
    ((pySplit 44 s).length < 4 → stageVoiceFields s = Option.none) ∧
    (∀ p0 p1 p2 p3 rest, pySplit 44 s = p0 :: p1 :: p2 :: p3 :: rest →
      stageVoiceFields s =
        (pyInt p1).bind (fun val1 => (pyInt p2).bind (fun val2 =>
          (pyInt p3).bind (fun val3 => some (p0, val1, val2, val3))))) := by
  constructor
  · intro hlen
    have h3 : (pySplit 44 s).get? 3 = Option.none := by
      rw [List.get?_eq_none]
      omega
    unfold stageVoiceFields
    simp only [Option.bind_eq_bind, h3]
    cases (pySplit 44 s).get? 0 with
    | none => rfl
    | some p0 =>
      simp only [Option.some_bind]
      cases (pySplit 44 s).get? 1 with
      | none => rfl
      | some p1 =>
        simp only [Option.some_bind]
        cases pyInt p1 with
        | none => rfl
        | some v1 =>
          simp only [Option.some_bind]
          cases (pySplit 44 s).get? 2 with
          | none => rfl
          | some p2 =>
            simp only [Option.some_bind]
            cases pyInt p2 with
            | none => rfl
            | some v2 => simp only [Option.some_bind, Option.none_bind]
  · intro p0 p1 p2 p3 rest hsp
    unfold stageVoiceFields
    rw [hsp]
    dsimp only
    rw [show (p0 :: p1 :: p2 :: p3 :: rest).get? 0 = some p0 from rfl,
      show (p0 :: p1 :: p2 :: p3 :: rest).get? 1 = some p1 from rfl,
      show (p0 :: p1 :: p2 :: p3 :: rest).get? 2 = some p2 from rfl,
      show (p0 :: p1 :: p2 :: p3 :: rest).get? 3 = some p3 from rfl]
    simp only [Option.bind_eq_bind, Option.some_bind]
    rfl

/-- The claim that more than 4 comma-separated parts is fatal is false: the
5-part string "v001,1,2,3,4" decodes successfully, the fifth part silently
ignored. -/
theorem stageVoiceFields_extra_parts_cex :
    pySplit 44 [118, 48, 48, 49, 44, 49, 44, 50, 44, 51, 44, 52] =
      [[118, 48, 48, 49], [49], [50], [51], [52]] ∧
    stageVoiceFields [118, 48, 48, 49, 44, 49, 44, 50, 44, 51, 44, 52] =
      some ([118, 48, 48, 49], 1, 2, 3) := by
  refine ⟨rfl, rfl⟩

/-- Witness for `stageVoiceFields_spec` on the 4-part string "v001,1,2,3". -/
theorem stageVoiceFields_spec_witness :
    stageVoiceFields [118, 48, 48, 49, 44, 49, 44, 50, 44, 51] =
      some ([118, 48, 48, 49], 1, 2, 3) := by
  rw [(stageVoiceFields_spec [118, 48, 48, 49, 44, 49, 44, 50, 44, 51]).2
    [118, 48, 48, 49] [49] [50] [51] [] rfl]
  rfl

theorem idxBytes_spec (idx : Int) (ib : List Nat)
    (h : (if 0 ≤ idx then toBytesLE 4 idx.toNat else none) = some ib) :
    0 ≤ idx ∧ toBytesLE 4 idx.toNat = some ib := by
  by_cases hi : 0 ≤ idx
  · rw [if_pos hi] at h
    exact ⟨hi, h⟩
  · rw [if_neg hi] at h
    exact Option.noConfusion h

theorem utf8Len_of_encode (s enc : List Nat) (h : utf8Encode s = some enc) :
    utf8Len s = enc.length := by
  simp [utf8Len, h]

theorem readEntries_write : ∀ (rs : List (Int × List Nat)) (start k : Nat)
    (pre suffix eb : List Nat),
    writeEntries rs start = some eb →
    readEntries k rs.length ⟨pre ++ (eb ++ suffix), pre.length⟩ =
      (specPairs k rs start, ⟨pre ++ (eb ++ suffix), pre.length + 8 * rs.length⟩) := by
  intro rs
  induction rs with
  | nil =>
    intro start k pre suffix eb h
    simp only [writeEntries] at h
    injection h with h'
    subst h'
    simp [readEntries, specPairs]
  | cons hd rest ih =>
    obtain ⟨idx, s⟩ := hd
    intro start k pre suffix eb h
    simp only [writeEntries, Option.bind_eq_bind] at h
    by_cases hidx : 0 ≤ idx
    case neg =>
      rw [if_neg hidx] at h
      simp at h
    rw [if_pos hidx] at h
    simp only [Option.bind_eq_some', Option.pure_def, Option.some.injEq] at h
    obtain ⟨ib, hib', pb, hpb, enc, henc, tl, htl, heq⟩ := h
    subst heq
    have hib4 : ib.length = 4 := toBytesLE_length _ _ _ hib'
    have hpb4 : pb.length = 4 := toBytesLE_length _ _ _ hpb
    have hD : pre ++ (ib ++ pb ++ tl ++ suffix) =
        pre ++ (ib ++ (pb ++ (tl ++ suffix))) := by
      simp [List.append_assoc]
    rw [hD]
    have e1 : (⟨pre ++ (ib ++ (pb ++ (tl ++ suffix))), pre.length⟩ : Buffer).readN 4 =
        (ib, ⟨pre ++ (ib ++ (pb ++ (tl ++ suffix))), pre.length + 4⟩) := by
      simp only [Buffer.readN, List.drop_left, List.take_left' hib4, hib4]
    have hdrop2 : (pre ++ (ib ++ (pb ++ (tl ++ suffix)))).drop (pre.length + 4) =
        pb ++ (tl ++ suffix) := by
      rw [← List.drop_drop, List.drop_left, ← hib4, List.drop_left]
    have e2 : (⟨pre ++ (ib ++ (pb ++ (tl ++ suffix))), pre.length + 4⟩ : Buffer).readN 4 =
        (pb, ⟨pre ++ (ib ++ (pb ++ (tl ++ suffix))), pre.length + 4 + 4⟩) := by
      simp only [Buffer.readN, hdrop2, List.take_left' hpb4, hpb4]
    have hD2 : pre ++ (ib ++ (pb ++ (tl ++ suffix))) =
        (pre ++ ib ++ pb) ++ (tl ++ suffix) := by
      simp [List.append_assoc]
    have hlen2 : (pre ++ ib ++ pb).length = pre.length + 4 + 4 := by
      simp [hib4, hpb4]
    have e3 := ih (start + (enc.length + 1)) (k + 1) (pre ++ ib ++ pb) suffix tl htl
    rw [hlen2] at e3
    show readEntries k (rest.length + 1) _ = _
    simp only [readEntries, e1]
    simp only [e2]
    rw [show (⟨pre ++ (ib ++ (pb ++ (tl ++ suffix))), pre.length + 4 + 4⟩ : Buffer) =
      (⟨(pre ++ ib ++ pb) ++ (tl ++ suffix), pre.length + 4 + 4⟩ : Buffer) from by rw [hD2]]
    rw [e3]
    dsimp only
    rw [fromBytesLE_toBytesLE _ _ _ hib', fromBytesLE_toBytesLE _ _ _ hpb]
    simp only [specPairs, utf8Len_of_encode s enc henc]
    rw [Prod.mk.injEq]
    refine ⟨rfl, ?_⟩
    rw [hD2, Buffer.mk.injEq]
    exact ⟨rfl, by simp only [List.length_cons]; omega⟩

theorem writeEntries_length : ∀ (rs : List (Int × List Nat)) (start : Nat) (eb : List Nat),
    writeEntries rs start = some eb → eb.length = 8 * rs.length := by
  intro rs
  induction rs with
  | nil =>
    intro start eb h
    simp only [writeEntries] at h
    injection h with h'
    subst h'
    rfl
  | cons hd rest ih =>
    obtain ⟨idx, s⟩ := hd
    intro start eb h
    simp only [writeEntries, Option.bind_eq_bind] at h
    by_cases hidx : 0 ≤ idx
    case neg =>
      rw [if_neg hidx] at h
      simp at h
    rw [if_pos hidx] at h
    simp only [Option.bind_eq_some', Option.pure_def, Option.some.injEq] at h
    obtain ⟨ib, hib', pb, hpb, enc, henc, tl, htl, heq⟩ := h
    subst heq
    have hib4 : ib.length = 4 := toBytesLE_length _ _ _ hib'
    have hpb4 : pb.length = 4 := toBytesLE_length _ _ _ hpb
    have := ih _ _ htl
    simp only [List.length_append, List.length_cons, this, hib4, hpb4]
    ring

theorem writeEntries_mem_nonneg : ∀ (rs : List (Int × List Nat)) (start : Nat) (eb : List Nat),
    writeEntries rs start = some eb → ∀ p ∈ rs, 0 ≤ p.1 := by
  intro rs
  induction rs with
  | nil =>
    intro start eb _ p hp
    cases hp
  | cons hd rest ih =>
    obtain ⟨idx, s⟩ := hd
    intro start eb h p hp
    simp only [writeEntries, Option.bind_eq_bind] at h
    by_cases hidx : 0 ≤ idx
    case neg =>
      rw [if_neg hidx] at h
      simp at h
    rw [if_pos hidx] at h
    simp only [Option.bind_eq_some', Option.pure_def, Option.some.injEq] at h
    obtain ⟨ib, hib', pb, hpb, enc, henc, tl, htl, heq⟩ := h
    cases hp with
    | head => exact hidx
    | tail _ hmem => exact ih _ _ htl p hmem

theorem readRecStrings_write : ∀ (rs : List (Int × List Nat)) (start k : Nat)
    (data : List Nat) (posv : Nat) (blob : List Nat),
    writeBlob rs = some blob →
    data.drop start = blob →
    (∀ p ∈ rs, ¬ (0 : Nat) ∈ p.2) →
    readRecStrings ⟨data, posv⟩ 0 (specPairs k rs start) = some (srecsOf k rs start) := by
  intro rs
  induction rs with
  | nil =>
    intro start k data posv blob _ _ _
    rfl
  | cons hd rest ih =>
    obtain ⟨idx, s⟩ := hd
    intro start k data posv blob hb hd0 hz
    simp only [writeBlob, Option.bind_eq_bind, Option.bind_eq_some', Option.pure_def,
      Option.some.injEq] at hb
    obtain ⟨enc, henc, tl, htl, heq⟩ := hb
    subst heq
    have hzs : ¬ (0 : Nat) ∈ s := hz (idx, s) (List.mem_cons_self _ _)
    have hzenc : ¬ (0 : Nat) ∈ enc := utf8Encode_zero_free s enc henc hzs
    have hblob : data.drop start = enc ++ 0 :: tl := by
      rw [hd0]
      simp [List.append_assoc]
    have hdropnext : data.drop (start + (utf8Len s + 1)) = tl := by
      rw [← List.drop_drop, hblob, utf8Len_of_encode s enc henc,
        show enc ++ 0 :: tl = (enc ++ [0]) ++ tl from by simp,
        List.drop_left' (by simp)]
    have hrs : read_string ⟨data, posv⟩ 0 start = some s := by
      simp only [read_string]
      rw [show start + 0 = start from rfl, hblob, scanNullTerm_append enc tl hzenc]
      exact utf8Decode_encode s enc henc
    have hzrest : ∀ p ∈ rest, ¬ (0 : Nat) ∈ p.2 :=
      fun p hp => hz p (List.mem_cons_of_mem _ hp)
    simp only [specPairs, readRecStrings, Option.bind_eq_bind, hrs, Option.some_bind,
      ih (start + (utf8Len s + 1)) (k + 1) data posv tl htl hdropnext hzrest]
    rfl

theorem srecsOf_map_index_string : ∀ (rs : List (Int × List Nat)) (k start : Nat),
    (∀ p ∈ rs, 0 ≤ p.1) →
    (srecsOf k rs start).map (fun r => ((r.index : Int), r.string)) = rs := by
  intro rs
  induction rs with
  | nil => intro k start _; rfl
  | cons hd rest ih =>
    obtain ⟨idx, s⟩ := hd
    intro k start hpos
    simp only [srecsOf, List.map_cons]
    rw [ih (k + 1) (start + (utf8Len s + 1)) (fun p hp => hpos p (List.mem_cons_of_mem _ hp))]
    have : ((idx.toNat : Int)) = idx := Int.toNat_of_nonneg (hpos (idx, s) (List.mem_cons_self _ _))
    rw [this]

theorem srecsOf_map_order : ∀ (rs : List (Int × List Nat)) (k start : Nat),
    (srecsOf k rs start).map SRec.order = List.range' k rs.length := by
  intro rs
  induction rs with
  | nil => intro k start; rfl
  | cons hd rest ih =>
    obtain ⟨idx, s⟩ := hd
    intro k start
    simp only [srecsOf, List.map_cons, List.length_cons, List.range'_succ]
    rw [ih (k + 1) (start + (utf8Len s + 1))]

theorem srecsOf_pointers : ∀ (rs : List (Int × List Nat)) (start k : Nat)
    (data blob : List Nat),
    writeBlob rs = some blob →
    data.drop start = blob →
    ∀ r ∈ srecsOf k rs start, ∃ enc tail2, utf8Encode r.string = some enc ∧
      data.drop r.pointer = enc ++ 0 :: tail2 := by
  intro rs
  induction rs with
  | nil =>
    intro start k data blob _ _ r hr
    cases hr
  | cons hd rest ih =>
    obtain ⟨idx, s⟩ := hd
    intro start k data blob hb hd0 r hr
    simp only [writeBlob, Option.bind_eq_bind, Option.bind_eq_some', Option.pure_def,
      Option.some.injEq] at hb
    obtain ⟨enc, henc, tl, htl, heq⟩ := hb
    subst heq
    have hblob : data.drop start = enc ++ 0 :: tl := by
      rw [hd0]
      simp [List.append_assoc]
    cases hr with
    | head =>
      exact ⟨enc, tl, henc, hblob⟩
    | tail _ hmem =>
      have hdropnext : data.drop (start + (utf8Len s + 1)) = tl := by
        rw [← List.drop_drop, hblob, utf8Len_of_encode s enc henc,
          show enc ++ 0 :: tl = (enc ++ [0]) ++ tl from by simp,
          List.drop_left' (by simp)]
      exact ih (start + (utf8Len s + 1)) (k + 1) data tl htl hdropnext r hmem

theorem stringTBL_write_unpack (rs : List (Int × List Nat)) (buf : List Nat)
    (h : stringTBL_write rs = some buf) :
    ∃ cb eb blob,
      toBytesLE 4 rs.length = some cb ∧
      writeEntries rs (12 + rs.length * 8 + (16 - (12 + rs.length * 8) % 16)) = some eb ∧
      writeBlob rs = some blob ∧
      buf = stringTBLHeader ++ cb ++ eb ++
        List.replicate (16 - (12 + rs.length * 8) % 16) 0 ++ blob := by
  simp only [stringTBL_write, Option.bind_eq_bind, Option.bind_eq_some', Option.pure_def,
    Option.some.injEq] at h
  obtain ⟨cb, hcb, eb, heb, blob, hblob, heq⟩ := h
  exact ⟨cb, eb, blob, hcb, heb, hblob, heq.symm⟩

theorem stringTBL_read_of_write (rs : List (Int × List Nat)) (buf : List Nat)
    (hw : stringTBL_write rs = some buf)
    (hz : ∀ p ∈ rs, ¬ (0 : Nat) ∈ p.2) :
    stringTBL_read ⟨buf, 0⟩ =
      some (srecsOf 0 rs (12 + rs.length * 8 + (16 - (12 + rs.length * 8) % 16))) := by
  obtain ⟨cb, eb, blob, hcb, heb, hblob, heq⟩ := stringTBL_write_unpack rs buf hw
  subst heq
  have hcb4 : cb.length = 4 := toBytesLE_length _ _ _ hcb
  have heb8 : eb.length = 8 * rs.length := writeEntries_length _ _ _ heb
  have hdr8 : stringTBLHeader.length = 8 := rfl
  have hbufr : stringTBLHeader ++ cb ++ eb ++
      List.replicate (16 - (12 + rs.length * 8) % 16) 0 ++ blob =
      stringTBLHeader ++ (cb ++ (eb ++
        (List.replicate (16 - (12 + rs.length * 8) % 16) 0 ++ blob))) := by
    simp [List.append_assoc]
  rw [hbufr]
  have e0 : (⟨stringTBLHeader ++ (cb ++ (eb ++
      (List.replicate (16 - (12 + rs.length * 8) % 16) 0 ++ blob))), 0⟩ : Buffer).readN
        stringTBLHeader.length =
      (stringTBLHeader, ⟨stringTBLHeader ++ (cb ++ (eb ++
        (List.replicate (16 - (12 + rs.length * 8) % 16) 0 ++ blob))), 8⟩) := by
    simp only [Buffer.readN, List.drop_zero, List.take_left]
    rw [Prod.mk.injEq, Buffer.mk.injEq]
    exact ⟨rfl, rfl, by rw [hdr8]⟩
  have e1 : (⟨stringTBLHeader ++ (cb ++ (eb ++
      (List.replicate (16 - (12 + rs.length * 8) % 16) 0 ++ blob))), 8⟩ : Buffer).readN 4 =
      (cb, ⟨stringTBLHeader ++ (cb ++ (eb ++
        (List.replicate (16 - (12 + rs.length * 8) % 16) 0 ++ blob))), 12⟩) := by
    simp only [Buffer.readN]
    rw [List.drop_left' hdr8, List.take_left' hcb4]
    rw [Prod.mk.injEq, Buffer.mk.injEq]
    exact ⟨rfl, rfl, by rw [hcb4]⟩
  have ehdr : read_header stringTBLHeader 4 (⟨stringTBLHeader ++ (cb ++ (eb ++
      (List.replicate (16 - (12 + rs.length * 8) % 16) 0 ++ blob))), 0⟩ : Buffer) =
      some (0, rs.length, ⟨stringTBLHeader ++ (cb ++ (eb ++
        (List.replicate (16 - (12 + rs.length * 8) % 16) 0 ++ blob))), 12⟩) := by
    simp only [read_header, e0, e1, if_true]
    rw [fromBytesLE_toBytesLE _ _ _ hcb]
  have hpre12 : (stringTBLHeader ++ cb).length = 12 := by
    simp [hcb4, hdr8]
  have hD2 : stringTBLHeader ++ (cb ++ (eb ++
      (List.replicate (16 - (12 + rs.length * 8) % 16) 0 ++ blob))) =
      (stringTBLHeader ++ cb) ++ (eb ++
        (List.replicate (16 - (12 + rs.length * 8) % 16) 0 ++ blob)) := by
    simp [List.append_assoc]
  have eent := readEntries_write rs (12 + rs.length * 8 + (16 - (12 + rs.length * 8) % 16)) 0
    (stringTBLHeader ++ cb)
    (List.replicate (16 - (12 + rs.length * 8) % 16) 0 ++ blob) eb heb
  rw [hpre12, ← hD2] at eent
  have hdropbase : (stringTBLHeader ++ (cb ++ (eb ++
      (List.replicate (16 - (12 + rs.length * 8) % 16) 0 ++ blob)))).drop
        (12 + rs.length * 8 + (16 - (12 + rs.length * 8) % 16)) = blob := by
    have hA : stringTBLHeader ++ (cb ++ (eb ++
        (List.replicate (16 - (12 + rs.length * 8) % 16) 0 ++ blob))) =
        (stringTBLHeader ++ (cb ++ (eb ++
          List.replicate (16 - (12 + rs.length * 8) % 16) 0))) ++ blob := by
      simp [List.append_assoc]
    rw [hA]
    refine List.drop_left' ?_
    simp only [List.length_append, List.length_replicate, hdr8, hcb4, heb8]
    omega
  have estr := readRecStrings_write rs
    (12 + rs.length * 8 + (16 - (12 + rs.length * 8) % 16)) 0
    (stringTBLHeader ++ (cb ++ (eb ++
      (List.replicate (16 - (12 + rs.length * 8) % 16) 0 ++ blob))))
    (12 + 8 * rs.length) blob hblob hdropbase hz
  simp only [stringTBL_read, tbl_read, Option.bind_eq_bind, ehdr, Option.some_bind]
  simp only [eent]
  exact estr

theorem stringTBL_write_drop_base (rs : List (Int × List Nat)) (buf : List Nat)
    (hw : stringTBL_write rs = some buf) :
    ∃ blob, writeBlob rs = some blob ∧
      buf.drop (12 + rs.length * 8 + (16 - (12 + rs.length * 8) % 16)) = blob := by
  obtain ⟨cb, eb, blob, hcb, heb, hblob, heq⟩ := stringTBL_write_unpack rs buf hw
  subst heq
  have hcb4 : cb.length = 4 := toBytesLE_length _ _ _ hcb
  have heb8 : eb.length = 8 * rs.length := writeEntries_length _ _ _ heb
  refine ⟨blob, hblob, ?_⟩
  have hA : stringTBLHeader ++ cb ++ eb ++
      List.replicate (16 - (12 + rs.length * 8) % 16) 0 ++ blob =
      (stringTBLHeader ++ cb ++ eb ++
        List.replicate (16 - (12 + rs.length * 8) % 16) 0) ++ blob := by
    simp [List.append_assoc]
  rw [hA]
  refine List.drop_left' ?_
  simp only [List.length_append, List.length_replicate, hcb4, heb8,
    show stringTBLHeader.length = 8 from rfl]
  omega

/-- C2 (amended): when `StringTBL._write` succeeds and no string contains a
NUL code point, reading the produced bytes back (`read_string` modelled from
spec §4.4: seek to the pointer and read a null-terminated string) yields the
original `(index, string)` pairs in order, the orders `0, 1, ...`, and every
decoded 4-byte pointer is the absolute offset in the buffer at which that
record's UTF-8 string bytes begin (followed by their terminator). -/
theorem stringTBL_roundtrip (rs : List (Int × List Nat)) (buf : List Nat)
    (hw : stringTBL_write rs = some buf)
    (hz : ∀ p ∈ rs, ¬ (0 : Nat) ∈ p.2) :
    ∃ out : List SRec,
      stringTBL_read ⟨buf, 0⟩ = some out ∧
      out.map (fun r => ((r.index : Int), r.string)) = rs ∧
      out.map SRec.order = List.range rs.length ∧
      ∀ r ∈ out, ∃ enc tail2, utf8Encode r.string = some enc ∧
        buf.drop r.pointer = enc ++ 0 :: tail2 := by
  obtain ⟨cb, eb, blob0, hcb, heb, hblob0, heq⟩ := stringTBL_write_unpack rs buf hw
  refine ⟨srecsOf 0 rs (12 + rs.length * 8 + (16 - (12 + rs.length * 8) % 16)),
    stringTBL_read_of_write rs buf hw hz, ?_, ?_, ?_⟩
  · exact srecsOf_map_index_string rs 0 _ (writeEntries_mem_nonneg rs _ eb heb)
  · rw [srecsOf_map_order rs 0 _, List.range_eq_range']
  · intro r hr
    obtain ⟨blob, hblob, hdrop⟩ := stringTBL_write_drop_base rs buf hw
    exact srecsOf_pointers rs _ 0 buf blob hblob hdrop r hr

/-- The claim as universally stated is false: a record whose string contains
a NUL code point writes successfully, but reading the bytes back truncates
the string at its embedded NUL — `[(1, "\x00")]` comes back as `[(1, "")]`. -/
theorem stringTBL_roundtrip_cex :
    stringTBL_write [(1, [0])] = some [0, 0, 0, 0, 0, 1, 1, 0, 1, 0, 0, 0, 1, 0, 0, 0,
      32, 0, 0, 0, 0, 0, 0, 0, 0, 0, 0, 0, 0, 0, 0, 0, 0, 0] ∧
    (stringTBL_read ⟨[0, 0, 0, 0, 0, 1, 1, 0, 1, 0, 0, 0, 1, 0, 0, 0,
        32, 0, 0, 0, 0, 0, 0, 0, 0, 0, 0, 0, 0, 0, 0, 0, 0, 0], 0⟩).map
      (fun out => out.map (fun r => ((r.index : Int), r.string))) = some [(1, [])] ∧
    ([(1, ([] : List Nat))] : List (Int × List Nat)) ≠ [(1, [0])] := by
  refine ⟨rfl, rfl, by decide⟩

/-- Witness for `stringTBL_roundtrip` on the spec's scenario
`[{index: 1, string: "A"}, {index: 2, string: "BB"}]`. -/
theorem stringTBL_roundtrip_witness :
    ∃ out : List SRec,
      stringTBL_read ⟨[0, 0, 0, 0, 0, 1, 1, 0, 2, 0, 0, 0, 1, 0, 0, 0, 32, 0, 0, 0,
        2, 0, 0, 0, 34, 0, 0, 0, 0, 0, 0, 0, 65, 0, 66, 66, 0], 0⟩ = some out ∧
      out.map (fun r => ((r.index : Int), r.string)) = [(1, [65]), (2, [66, 66])] ∧
      out.map SRec.order = List.range ([(1, [65]), ((2 : Int), [66, 66])].length) ∧
      ∀ r ∈ out, ∃ enc tail2, utf8Encode r.string = some enc ∧
        [0, 0, 0, 0, 0, 1, 1, 0, 2, 0, 0, 0, 1, 0, 0, 0, 32, 0, 0, 0,
          2, 0, 0, 0, 34, 0, 0, 0, 0, 0, 0, 0, 65, 0, 66, 66, 0].drop r.pointer =
            enc ++ 0 :: tail2 :=
  stringTBL_roundtrip [(1, [65]), (2, [66, 66])]
    [0, 0, 0, 0, 0, 1, 1, 0, 2, 0, 0, 0, 1, 0, 0, 0, 32, 0, 0, 0,
      2, 0, 0, 0, 34, 0, 0, 0, 0, 0, 0, 0, 65, 0, 66, 66, 0] rfl (by decide)

/-- C9: on every successful non-empty write, the first string offset is
`12 + count*8 + padding`, at least `12 + count*8` and a multiple of 16; the
padding bytes are all zero and number in `[1, 16]` (the always-pad policy:
`16 - ((12 + count*8) % 16)` is never 0). -/
theorem stringTBL_padding_invariant (rs : List (Int × List Nat)) (buf : List Nat)
    (hw : stringTBL_write rs = some buf) (hne : rs ≠ []) :
    1 ≤ 16 - (12 + rs.length * 8) % 16 ∧
    16 - (12 + rs.length * 8) % 16 ≤ 16 ∧
    12 + rs.length * 8 ≤ 12 + rs.length * 8 + (16 - (12 + rs.length * 8) % 16) ∧
    (12 + rs.length * 8 + (16 - (12 + rs.length * 8) % 16)) % 16 = 0 ∧
    (buf.drop (12 + rs.length * 8)).take (16 - (12 + rs.length * 8) % 16) =
      List.replicate (16 - (12 + rs.length * 8) % 16) 0 ∧
    fromBytesLE ((buf.drop 16).take 4) =
      12 + rs.length * 8 + (16 - (12 + rs.length * 8) % 16) := by
  obtain ⟨cb, eb, blob, hcb, heb, hblob, heq⟩ := stringTBL_write_unpack rs buf hw
  subst heq
  have hcb4 : cb.length = 4 := toBytesLE_length _ _ _ hcb
  have heb8 : eb.length = 8 * rs.length := writeEntries_length _ _ _ heb
  have hdr8 : stringTBLHeader.length = 8 := rfl
  refine ⟨by omega, by omega, by omega, by omega, ?_, ?_⟩
  · have hA : stringTBLHeader ++ cb ++ eb ++
        List.replicate (16 - (12 + rs.length * 8) % 16) 0 ++ blob =
        (stringTBLHeader ++ cb ++ eb) ++
          (List.replicate (16 - (12 + rs.length * 8) % 16) 0 ++ blob) := by
      simp [List.append_assoc]
    rw [hA]
    rw [List.drop_left' (by simp only [List.length_append, hdr8, hcb4, heb8]; omega)]
    exact List.take_left' (List.length_replicate _ _)
  · cases rs with
    | nil => exact absurd rfl hne
    | cons hd tlr =>
      obtain ⟨idx, s⟩ := hd
      simp only [writeEntries, Option.bind_eq_bind] at heb
      by_cases hidx : 0 ≤ idx
      case neg =>
        rw [if_neg hidx] at heb
        simp at heb
      rw [if_pos hidx] at heb
      simp only [Option.bind_eq_some', Option.pure_def, Option.some.injEq] at heb
      obtain ⟨ib, hib', pb, hpb, enc, henc, tlb, htlb, heq2⟩ := heb
      subst heq2
      have hib4 : ib.length = 4 := toBytesLE_length _ _ _ hib'
      have hpb4 : pb.length = 4 := toBytesLE_length _ _ _ hpb
      have hA2 : stringTBLHeader ++ cb ++ (ib ++ pb ++ tlb) ++
          List.replicate (16 - (12 + ((idx, s) :: tlr).length * 8) % 16) 0 ++ blob =
          (stringTBLHeader ++ cb ++ ib) ++
            (pb ++ (tlb ++ (List.replicate (16 - (12 + ((idx, s) :: tlr).length * 8) % 16) 0 ++
              blob))) := by
        simp [List.append_assoc]
      rw [hA2]
      rw [List.drop_left' (by simp only [List.length_append, hdr8, hcb4, hib4])]
      rw [List.take_left' hpb4]
      exact fromBytesLE_toBytesLE _ _ _ hpb

/-- Witness for `stringTBL_padding_invariant` on the one-record table
`[{index: 1, string: "A"}]`. -/
theorem stringTBL_padding_invariant_witness :
    1 ≤ 16 - (12 + [((1 : Int), [(65 : Nat)])].length * 8) % 16 ∧
    16 - (12 + [((1 : Int), [(65 : Nat)])].length * 8) % 16 ≤ 16 ∧
    12 + [((1 : Int), [(65 : Nat)])].length * 8 ≤ 12 + [((1 : Int), [(65 : Nat)])].length * 8 +
      (16 - (12 + [((1 : Int), [(65 : Nat)])].length * 8) % 16) ∧
    (12 + [((1 : Int), [(65 : Nat)])].length * 8 +
      (16 - (12 + [((1 : Int), [(65 : Nat)])].length * 8) % 16)) % 16 = 0 ∧
    (([0, 0, 0, 0, 0, 1, 1, 0, 1, 0, 0, 0, 1, 0, 0, 0, 32, 0, 0, 0,
        0, 0, 0, 0, 0, 0, 0, 0, 0, 0, 0, 0, 65, 0] : List Nat).drop
          (12 + [((1 : Int), [(65 : Nat)])].length * 8)).take
        (16 - (12 + [((1 : Int), [(65 : Nat)])].length * 8) % 16) =
      List.replicate (16 - (12 + [((1 : Int), [(65 : Nat)])].length * 8) % 16) 0 ∧
    fromBytesLE ((([0, 0, 0, 0, 0, 1, 1, 0, 1, 0, 0, 0, 1, 0, 0, 0, 32, 0, 0, 0,
        0, 0, 0, 0, 0, 0, 0, 0, 0, 0, 0, 0, 65, 0] : List Nat).drop 16).take 4) =
      12 + [((1 : Int), [(65 : Nat)])].length * 8 +
        (16 - (12 + [((1 : Int), [(65 : Nat)])].length * 8) % 16) :=
  stringTBL_padding_invariant [(1, [65])]
    [0, 0, 0, 0, 0, 1, 1, 0, 1, 0, 0, 0, 1, 0, 0, 0, 32, 0, 0, 0,
      0, 0, 0, 0, 0, 0, 0, 0, 0, 0, 0, 0, 65, 0] rfl (by decide)
